import Mathlib

/-! OscCalcDMP: cache consistency and channel indexing

A shallow embedding of `OscCalcDMP.cxx` (namespace `osc`, class template
`_OscCalcDMP<T>`), followed by theorems about its cache logic.

Modelling conventions.

* `double` energies are values of a type `D` and the scalar type `T` of the
  template is a type `T`; both carry a decidable equality that stands for the
  C++ `operator==`, so the model covers the values on which `==` is exact
  equality (IEEE NaN and signed zeros are outside the model).
* `int` is `Int` with the 32-bit range checked where the source can leave it;
  signed overflow and division by zero are undefined behaviour in C++ and are
  reported as a `Fault`.
* An Eigen dense array is its dimensions together with its coefficient
  function; every access checks the range that Eigen asserts, and a violated
  range is a `Fault` (undefined behaviour in a build without assertions).
* The calculator object is passed explicitly: a member function that mutates
  `*this` returns the new object.
* The physics engine `_PMNS_DMP<T>` (declared in `PMNS_DMP.h`) is a parameter
  `engine`; the field `engineLog` is a ghost record of its invocations.
* The conversion of `energies.size()` to `int nbins` is taken to be exact
  (lists of fewer than `2^31` energies), and `-1 * x` on a `double` is `-x`.
* `SaveLastParams` and `_sincos` touch nothing the cache logic reads and are
  not embedded.
* The revision counter `fCache.iter` (declared in the header) is a natural
  number; its overflow is not modelled.
* Objects are values: `Copy()` is the member-wise copy made by
  `new _OscCalcDMP<T>(*this)`. Whether two C++ objects share storage depends
  on the member declarations of the header and is outside the model.
-/

namespace osc

/-! ## Faults, machine integers, Eigen arrays -/

/-- Undefined behaviour of the source: each constructor names the operation
whose precondition was violated and, for a range violation, the offending
index. -/
inductive Fault where
  | divideByZero
  | intOverflow
  | blockOutOfRange
  | colOutOfRange (idx : Int)
  | coeffOutOfRange (row : Nat) (col : Int)
  deriving DecidableEq, Repr

/-- Smallest value of a 32-bit `int`. -/
def INT_MIN : Int := -2147483648

/-- Largest value of a 32-bit `int`. -/
def INT_MAX : Int := 2147483647

/-- The result of a signed `int` operation: a value outside the 32-bit range
is an overflow. -/
def chk (x : Int) : Except Fault Int :=
  if INT_MIN ≤ x ∧ x ≤ INT_MAX then .ok x else .error .intOverflow

/-- The C function `abs` on `int`: the magnitude, checked against the 32-bit
range (`abs(INT_MIN)` overflows). -/
def cabs (x : Int) : Except Fault Int :=
  chk (Int.natAbs x : Int)

/-- The C operator `/` on `int`: truncation towards zero, undefined for a
zero divisor and for `INT_MIN / -1`. -/
def cdiv (x y : Int) : Except Fault Int :=
  if y = 0 then .error .divideByZero else chk (Int.tdiv x y)

/-- An Eigen dense array `Array<T, Dynamic, Dynamic>`: its dimensions and its
coefficients, read as `coeffs row col` for `row < rows` and `col < cols`. -/
structure ArrayXX (T : Type) where
  rows : Nat
  cols : Nat
  coeffs : Nat → Nat → T

namespace ArrayXX

variable {T : Type}

/-- Eigen `block(startRow, startCol, blockRows, blockCols)` read as a value;
Eigen asserts that the block lies inside the array. -/
def block (m : ArrayXX T) (startRow startCol blockRows blockCols : Nat) :
    Except Fault (ArrayXX T) :=
  if startRow + blockRows ≤ m.rows ∧ startCol + blockCols ≤ m.cols then
    .ok ⟨blockRows, blockCols, fun r c => m.coeffs (startRow + r) (startCol + c)⟩
  else
    .error .blockOutOfRange

/-- Eigen `col(i)`: the column as a vector of `rows` entries; Eigen asserts
`0 ≤ i < cols`. -/
def col (m : ArrayXX T) (i : Int) : Except Fault (List T) :=
  if 0 ≤ i ∧ i < (m.cols : Int) then
    .ok ((List.range m.rows).map fun r => m.coeffs r i.toNat)
  else
    .error (.colOutOfRange i)

/-- Eigen `operator()(row, col)`; Eigen asserts both indices are in range. -/
def coeff (m : ArrayXX T) (row : Nat) (c : Int) : Except Fault T :=
  if row < m.rows ∧ 0 ≤ c ∧ c < (m.cols : Int) then
    .ok (m.coeffs row c.toNat)
  else
    .error (.coeffOutOfRange row c)

end ArrayXX

/-! ## Data model -/

/-- Modelled from the spec: the declaration of `_OscParameters<T>` is in a
header that is not part of the sources; the fields and their order are those
of the spec's ParameterSet, which is the order of the aggregate initialiser
in `FillCache()`. -/
structure OscParameters (T : Type) where
  dmsq21 : T
  dmsq32 : T
  th12 : T
  th13 : T
  th23 : T
  deltacp : T
  L : T
  rho : T
  deriving DecidableEq, Repr

/-- One invocation of the physics engine: the expanded energy array and the
density and baseline given to the constructor of `_PMNS_DMP<T>`, and the
parameter set given to its `P`. -/
structure EngineCall (D T : Type) where
  ENERGIES : List D
  rho : T
  L : T
  params : OscParameters T
  deriving DecidableEq, Repr

/-- The physics engine `_PMNS_DMP<T>(ENERGIES, rho, L).P(params)` as a
deterministic function of its four inputs. -/
abbrev Engine (D T : Type) := List D → T → T → OscParameters T → ArrayXX T

/-- Modelled from the spec: the cache type behind `fCache` is declared in a
header that is not part of the sources; the fields are the ones the member
functions use (`energies`, `ENERGIES`, `probabilities`, `parameters`,
`iter`), the spec's ResultCache. -/
structure Cache (D T : Type) where
  energies : List D
  ENERGIES : List D
  probabilities : ArrayXX T
  parameters : OscParameters T
  iter : Nat

/-- The object `_OscCalcDMP<T>`: the eight current parameters inherited from
`_IOscCalcAdjustable<T>`, the cache, and the ghost log of engine calls. -/
structure OscCalcDMP (D T : Type) where
  fDmsq21 : T
  fDmsq32 : T
  fTh12 : T
  fTh13 : T
  fTh23 : T
  fdCP : T
  fL : T
  fRho : T
  fCache : Cache D T
  engineLog : List (EngineCall D T)

/-- The names of the eight parameter fields. -/
inductive ParamField where
  | dmsq21 | dmsq32 | th12 | th13 | th23 | deltacp | L | rho
  deriving DecidableEq, Repr

section Model

variable {D T : Type}

/-- The parameter set built in `FillCache()` from the current fields:
`params{fDmsq21, fDmsq32, fTh12, fTh13, fTh23, fdCP, fL, fRho}`. -/
def currentParams (s : OscCalcDMP D T) : OscParameters T :=
  ⟨s.fDmsq21, s.fDmsq32, s.fTh12, s.fTh13, s.fTh23, s.fdCP, s.fL, s.fRho⟩

/-- Modelled from the spec: the getters of the parameter mutation interface
(declared in the header), plain field reads. -/
def getParam (f : ParamField) (s : OscCalcDMP D T) : T :=
  match f with
  | .dmsq21 => s.fDmsq21
  | .dmsq32 => s.fDmsq32
  | .th12 => s.fTh12
  | .th13 => s.fTh13
  | .th23 => s.fTh23
  | .deltacp => s.fdCP
  | .L => s.fL
  | .rho => s.fRho

/-- Modelled from the spec: the setters of the parameter mutation interface
(declared in the header), plain field writes that touch nothing else. -/
def setParam (f : ParamField) (v : T) (s : OscCalcDMP D T) : OscCalcDMP D T :=
  match f with
  | .dmsq21 => { s with fDmsq21 := v }
  | .dmsq32 => { s with fDmsq32 := v }
  | .th12 => { s with fTh12 := v }
  | .th13 => { s with fTh13 := v }
  | .th23 => { s with fTh23 := v }
  | .deltacp => { s with fdCP := v }
  | .L => { s with fL := v }
  | .rho => { s with fRho := v }

/-- Modelled from the spec: a freshly constructed calculator (the constructor
is in the header). The cache is empty: no energies and a default-constructed
probability array of zero rows and zero columns. The initial current and
cached parameter values are arbitrary. -/
def fresh [Inhabited T] (cur cached : OscParameters T) : OscCalcDMP D T where
  fDmsq21 := cur.dmsq21
  fDmsq32 := cur.dmsq32
  fTh12 := cur.th12
  fTh13 := cur.th13
  fTh23 := cur.th23
  fdCP := cur.deltacp
  fL := cur.L
  fRho := cur.rho
  fCache := ⟨[], [], ⟨0, 0, fun _ _ => default⟩, cached, 0⟩
  engineLog := []

/-- The member `Copy()`: the implicit copy constructor, a member-wise copy
of the whole object. -/
def Copy (s : OscCalcDMP D T) : OscCalcDMP D T := s

/-- The member `ParamsAreCached()`. -/
def ParamsAreCached [DecidableEq T] (s : OscCalcDMP D T) : Bool :=
  decide (s.fDmsq21 = s.fCache.parameters.dmsq21) &&
  decide (s.fDmsq32 = s.fCache.parameters.dmsq32) &&
  decide (s.fTh12 = s.fCache.parameters.th12) &&
  decide (s.fTh13 = s.fCache.parameters.th13) &&
  decide (s.fTh23 = s.fCache.parameters.th23) &&
  decide (s.fdCP = s.fCache.parameters.deltacp) &&
  decide (s.fL = s.fCache.parameters.L) &&
  decide (s.fRho = s.fCache.parameters.rho)

/-- The member `ChannelCacheIdx(flavBefore, flavAfter)`, statement by
statement, on 32-bit `int`. -/
def ChannelCacheIdx (flavBefore flavAfter : Int) : Except Fault Int := do
  let absBefore ← cabs flavBefore
  let anti ← cdiv flavBefore absBefore
  let i ← cdiv (← chk (absBefore - 12)) 2
  let j ← cdiv (← chk ((← cabs flavAfter) - 12)) 2
  let antiBlock ← chk ((← cdiv (← chk (1 - anti)) 2) * 9)
  let cell ← chk ((← chk (3 * j)) + i)
  let idx ← chk (antiBlock + cell)
  return idx

/-- The member `SetCachedEnergies(energies)`: stores the list and the array
`EE` whose first half is the list and whose second half is `-1 *` the list. -/
def SetCachedEnergies [Neg D] (s : OscCalcDMP D T) (energies : List D) :
    OscCalcDMP D T :=
  { s with fCache := { s.fCache with
      energies := energies
      ENERGIES := energies ++ energies.map (fun e => -e) } }

/-- Lines 143 to 146 of `FillCache()`: the array `cache(nbins, 18)` whose
columns 0..8 are `_cache.block(0, 0, nbins, 9)` and whose columns 9..17 are
`_cache.block(nbins, 0, nbins, 9)`; the two assignments cover every cell. -/
def reshape (_cache : ArrayXX T) (nbins : Nat) : Except Fault (ArrayXX T) := do
  let lo ← _cache.block 0 0 nbins 9
  let hi ← _cache.block nbins 0 nbins 9
  return ⟨nbins, 18, fun r c => if c < 9 then lo.coeffs r c else hi.coeffs r (c - 9)⟩

/-- The member `FillCache()`: one engine invocation on the stored expanded
energies and the current parameters, the reshape, and the update of the
cache (`probabilities`, `parameters`, `iter++`). -/
def FillCache (engine : Engine D T) (s : OscCalcDMP D T) :
    Except Fault (OscCalcDMP D T) := do
  let params := currentParams s
  let _cache := engine s.fCache.ENERGIES s.fRho s.fL params
  let nbins := s.fCache.energies.length
  let cache ← reshape _cache nbins
  return { s with
    fCache := { s.fCache with
      probabilities := cache
      parameters := params
      iter := s.fCache.iter + 1 }
    engineLog := s.engineLog ++ [⟨s.fCache.ENERGIES, s.fRho, s.fL, params⟩] }

/-- The member `FillCache(energies)`. -/
def FillCacheWith [Neg D] (engine : Engine D T) (s : OscCalcDMP D T)
    (energies : List D) : Except Fault (OscCalcDMP D T) :=
  FillCache engine (SetCachedEnergies s energies)

/-- The guard `fCache.energies.size() != (size_t) fCache.probabilities.cols()
&& fCache.energies.size() != 0`, commented "does a cache exist". -/
def cacheExists (s : OscCalcDMP D T) : Bool :=
  decide (s.fCache.energies.length ≠ s.fCache.probabilities.cols) &&
  decide (s.fCache.energies.length ≠ 0)

/-- The vector query `P(flavBefore, flavAfter, const std::vector<double>& E)`:
the returned column and the calculator after the call. The three nested
tests of the source are one conjunction evaluated left to right; every path
that does not return from the innermost branch falls through to
`FillCache(E)`. -/
def PVec [DecidableEq D] [Neg D] [DecidableEq T] (engine : Engine D T)
    (s : OscCalcDMP D T) (flavBefore flavAfter : Int) (E : List D) :
    Except Fault (List T × OscCalcDMP D T) :=
  if cacheExists s && ParamsAreCached s && decide (s.fCache.energies = E) then do
    let v ← s.fCache.probabilities.col (← ChannelCacheIdx flavBefore flavAfter)
    return (v, s)
  else do
    let s1 ← FillCacheWith engine s E
    let v ← s1.fCache.probabilities.col (← ChannelCacheIdx flavBefore flavAfter)
    return (v, s1)

/-- The scalar query `P(flavBefore, flavAfter, double E)`. The flag `isVar`
is the compile-time constant `std::is_same<T, stan::math::var>::value`; the
test `e_it != fCache.energies.end()` is `indexOf E ≠ length`. As in the vector
query the nested tests are one conjunction and every other path falls
through to `FillCache({E})`. -/
def PScalar [DecidableEq D] [Neg D] [DecidableEq T] (engine : Engine D T)
    (isVar : Bool) (s : OscCalcDMP D T) (flavBefore flavAfter : Int) (E : D) :
    Except Fault (T × OscCalcDMP D T) :=
  if !isVar && cacheExists s && ParamsAreCached s
      && decide (s.fCache.energies.indexOf E ≠ s.fCache.energies.length) then do
    let v ← s.fCache.probabilities.coeff (s.fCache.energies.indexOf E)
      (← ChannelCacheIdx flavBefore flavAfter)
    return (v, s)
  else do
    let s1 ← FillCacheWith engine s [E]
    let v ← s1.fCache.probabilities.coeff 0 (← ChannelCacheIdx flavBefore flavAfter)
    return (v, s1)

/-- The four-argument query `P(flavBefore, flavAfter, double E, bool
fast_and_loose)`: with the flag set, `std::find` on the stored energies
(the position of the first match, the length when there is none) and an
unchecked read of that row. -/
def PLoose [DecidableEq D] [Neg D] [DecidableEq T] (engine : Engine D T)
    (isVar : Bool) (s : OscCalcDMP D T) (flavBefore flavAfter : Int) (E : D)
    ( fast_and_loose : Bool) : Except Fault (T × OscCalcDMP D T) :=
  if fast_and_loose then do
    let v ← s.fCache.probabilities.coeff (s.fCache.energies.indexOf E)
      (← ChannelCacheIdx flavBefore flavAfter)
    return (v, s)
  else
    PScalar engine isVar s flavBefore flavAfter E

end Model

/-! ## Specification-side definitions -/

deriving instance DecidableEq for Except

/-- The flavour identifiers of the documented domain, `±12, ±14, ±16`. -/
def flavours : List Int := [12, 14, 16, -12, -14, -16]

/-- The channel index in the words of the spec (section 4.1):
`antiBlock + 3*j + i` with `i = (|before| - 12) / 2`, `j = (|after| - 12) / 2`
and `antiBlock = 0` if `before > 0` else `9`. -/
def specIndex (before after : Int) : Int :=
  (if before > 0 then 0 else 9) + 3 * ((|after| - 12) / 2) + (|before| - 12) / 2

/-- The eighteen same-sign channels, the nine neutrino pairs in the order of
the spec's table followed by the nine antineutrino pairs in the same order. -/
def sameSignChannels : List (Int × Int) :=
  [(12, 12), (14, 12), (16, 12), (12, 14), (14, 14), (16, 14), (12, 16), (14, 16), (16, 16),
   (-12, -12), (-14, -12), (-16, -12), (-12, -14), (-14, -14), (-16, -14),
   (-12, -16), (-14, -16), (-16, -16)]

section Spec

variable {D T : Type}

/-- The expanded energy array in the words of the spec:
`concat(energies, map(negate, energies))`. -/
def expand [Neg D] (E : List D) : List D := E ++ E.map (fun e => -e)

/-- The `N × 18` matrix of the spec (section 4.2, step 3) assembled from the
engine's `2N × 9` block for the energy list `E`: columns 0..8 from block rows
`0..N-1`, columns 9..17 from block rows `N..2N-1`. -/
def specMatrix [Neg D] (engine : Engine D T) (E : List D) (rho L : T)
    (p : OscParameters T) : ArrayXX T :=
  ⟨E.length, 18, fun r c =>
    if c < 9 then (engine (expand E) rho L p).coeffs r c
    else (engine (expand E) rho L p).coeffs (E.length + r) (c - 9)⟩

/-- The refill of the spec (section 4.2) with the current parameters: every
cache field is overwritten, the revision grows by one, and the engine is
invoked once. -/
def specRefill [Neg D] (engine : Engine D T) (s : OscCalcDMP D T) (E : List D) :
    OscCalcDMP D T :=
  { s with
    fCache := ⟨E, expand E, specMatrix engine E s.fRho s.fL (currentParams s),
      currentParams s, s.fCache.iter + 1⟩
    engineLog := s.engineLog ++ [⟨expand E, s.fRho, s.fL, currentParams s⟩] }

/-- The column `c` of a matrix as the sequence of its `rows` entries. -/
def column (M : ArrayXX T) (c : Int) : List T :=
  (List.range M.rows).map fun r => M.coeffs r c.toNat

/-- Modelled from the spec: the engine `_PMNS_DMP<T>` is declared in
`PMNS_DMP.h`, which is not part of the sources. Shape part of its contract
(sections 4.2 and 6): for an expanded energy array of length `2N` the engine
returns a block of `2N` rows and 9 columns. -/
def EngineShape (engine : Engine D T) : Prop :=
  ∀ EE rho L p, (engine EE rho L p).rows = EE.length ∧ (engine EE rho L p).cols = 9

/-- Modelled from the spec: the engine `_PMNS_DMP<T>` is declared in
`PMNS_DMP.h`, which is not part of the sources. Row part of its contract
(sections 3 and 4.2 and the glossary): a row of the block holds the channel
probabilities of the energy at that position of the array, and the physical
inputs fully determine the probabilities, so two rows computed for the same
energy and the same inputs are equal, whatever else the arrays contain. -/
def RowLocal (engine : Engine D T) : Prop :=
  ∀ (EE EE' : List D) (rho L : T) (p : OscParameters T) (r r' : Nat) (x : D),
    EE[r]? = some x → EE'[r']? = some x →
    ∀ c, c < 9 → (engine EE rho L p).coeffs r c = (engine EE' rho L p).coeffs r' c

/-- The hit condition of the vector query: the guard "does a cache exist",
`ParamsAreCached()` and `fCache.energies == E`. -/
def vecHit [DecidableEq D] [DecidableEq T] (s : OscCalcDMP D T) (E : List D) : Bool :=
  cacheExists s && ParamsAreCached s && decide (s.fCache.energies = E)

/-- The hit condition of the scalar query: not the differentiable variant,
the guard "does a cache exist", `ParamsAreCached()`, and `std::find` does not
return `end()`. -/
def scalarHit [DecidableEq D] [DecidableEq T] (isVar : Bool) (s : OscCalcDMP D T)
    (E : D) : Bool :=
  !isVar && cacheExists s && ParamsAreCached s
    && decide (s.fCache.energies.indexOf E ≠ s.fCache.energies.length)

/-- The calculator after the vector query: unchanged on a hit, refilled with
the requested list otherwise. -/
def afterVec [DecidableEq D] [Neg D] [DecidableEq T] (engine : Engine D T)
    (s : OscCalcDMP D T) (E : List D) : OscCalcDMP D T :=
  if vecHit s E then s else specRefill engine s E

/-- The calculator after the scalar query: unchanged on a hit, refilled with
the singleton list otherwise. -/
def afterScalar [DecidableEq D] [Neg D] [DecidableEq T] (engine : Engine D T)
    (isVar : Bool) (s : OscCalcDMP D T) (E : D) : OscCalcDMP D T :=
  if scalarHit isVar s E then s else specRefill engine s [E]

/-- The calculator states reachable from a freshly constructed calculator by
parameter changes, copies and the three query forms. -/
inductive Reachable [DecidableEq D] [Neg D] [DecidableEq T] [Inhabited T]
    (engine : Engine D T) (isVar : Bool) : OscCalcDMP D T → Prop
  | fresh (cur cached : OscParameters T) : Reachable engine isVar (fresh cur cached)
  | setParam {s : OscCalcDMP D T} (f : ParamField) (v : T) :
      Reachable engine isVar s → Reachable engine isVar (setParam f v s)
  | copy {s : OscCalcDMP D T} : Reachable engine isVar s → Reachable engine isVar (Copy s)
  | vector {s s' : OscCalcDMP D T} {v : List T} (b a : Int) (E : List D) :
      Reachable engine isVar s → PVec engine s b a E = .ok (v, s') →
      Reachable engine isVar s'
  | scalar {s s' : OscCalcDMP D T} {v : T} (b a : Int) (e : D) :
      Reachable engine isVar s → PScalar engine isVar s b a e = .ok (v, s') →
      Reachable engine isVar s'
  | loose {s s' : OscCalcDMP D T} {v : T} (b a : Int) (e : D) (fl : Bool) :
      Reachable engine isVar s → PLoose engine isVar s b a e fl = .ok (v, s') →
      Reachable engine isVar s'

/-- Consistency of the cache: the stored matrix has one row per stored energy
and, when the stored list is non-empty, it is the matrix assembled from the
engine's output for the stored energies and the cached parameters. -/
def CacheInv [Neg D] (engine : Engine D T) (s : OscCalcDMP D T) : Prop :=
  s.fCache.probabilities.rows = s.fCache.energies.length ∧
  (s.fCache.energies = [] ∨
    s.fCache.probabilities = specMatrix engine s.fCache.energies
      s.fCache.parameters.rho s.fCache.parameters.L s.fCache.parameters)

/-- The vector query called `n` times in a row on the same arguments: the
results in call order and the final calculator. -/
def PVecTimes [DecidableEq D] [Neg D] [DecidableEq T] (engine : Engine D T)
    (b a : Int) (E : List D) : Nat → OscCalcDMP D T →
    Except Fault (List (List T) × OscCalcDMP D T)
  | 0, s => .ok ([], s)
  | n + 1, s =>
    match PVec engine s b a E with
    | .error f => .error f
    | .ok (v, s1) =>
      match PVecTimes engine b a E n s1 with
      | .error f => .error f
      | .ok (vs, s2) => .ok (v :: vs, s2)

end Spec

/-! ## Operations of the file -/

section Operations

variable {D T : Type}

/-- The calculator states reached from a freshly constructed calculator by
parameter changes and the operations of the source file: `FillCache()`,
`FillCache(energies)`, the three query forms and, when `bare` is set,
`SetCachedEnergies` called on its own. -/
inductive ReachableOps [DecidableEq D] [Neg D] [DecidableEq T] [Inhabited T]
    (engine : Engine D T) (isVar : Bool) (bare : Bool) : OscCalcDMP D T → Prop
  | fresh (cur cached : OscParameters T) : ReachableOps engine isVar bare (fresh cur cached)
  | setParam {s : OscCalcDMP D T} (f : ParamField) (v : T) :
      ReachableOps engine isVar bare s → ReachableOps engine isVar bare (setParam f v s)
  | setCachedEnergies {s : OscCalcDMP D T} (E : List D) :
      bare = true → ReachableOps engine isVar bare s →
      ReachableOps engine isVar bare (SetCachedEnergies s E)
  | fillCache {s s' : OscCalcDMP D T} :
      ReachableOps engine isVar bare s → FillCache engine s = .ok s' →
      ReachableOps engine isVar bare s'
  | fillCacheWith {s s' : OscCalcDMP D T} (E : List D) :
      ReachableOps engine isVar bare s → FillCacheWith engine s E = .ok s' →
      ReachableOps engine isVar bare s'
  | vector {s s' : OscCalcDMP D T} {v : List T} (b a : Int) (E : List D) :
      ReachableOps engine isVar bare s → PVec engine s b a E = .ok (v, s') →
      ReachableOps engine isVar bare s'
  | scalar {s s' : OscCalcDMP D T} {v : T} (b a : Int) (e : D) :
      ReachableOps engine isVar bare s → PScalar engine isVar s b a e = .ok (v, s') →
      ReachableOps engine isVar bare s'
  | loose {s s' : OscCalcDMP D T} {v : T} (b a : Int) (e : D) (fl : Bool) :
      ReachableOps engine isVar bare s → PLoose engine isVar s b a e fl = .ok (v, s') →
      ReachableOps engine isVar bare s'

end Operations

/-! ## Test fixtures -/

/-- A stand-in engine on integer energies: a block of one row per entry of
the expanded array and 9 columns, the cell computed from the row's energy,
the column and the parameter `th13`. -/
def tableEngine : Engine Int Int :=
  fun EE _ _ p => ⟨EE.length, 9, fun r c => 1000 * EE.getD r 0 + 10 * c + p.th13⟩

/-- A parameter set for the examples. -/
def sampleParams : OscParameters Int := ⟨1, 2, 3, 4, 5, 6, 7, 8⟩

/-- A freshly constructed calculator for the examples. -/
def sampleCalc : OscCalcDMP Int Int := fresh sampleParams sampleParams

/-- The example calculator after a refill with the grid `[1, 2, 3]`. -/
def warmCalc : OscCalcDMP Int Int := specRefill tableEngine sampleCalc [1, 2, 3]

/-- A grid of eighteen energies. -/
def grid18 : List Int := List.range' 1 18

/-- The example calculator after a refill with the grid of eighteen
energies. -/
def calc18 : OscCalcDMP Int Int := specRefill tableEngine sampleCalc grid18

end osc

/-! ## Machine integers and the channel index -/

namespace osc

theorem chk_ok {x : Int} (h1 : INT_MIN ≤ x) (h2 : x ≤ INT_MAX) : chk x = .ok x := by
  simp [chk, h1, h2]

theorem tdiv_two_eq (x : Int) : x.tdiv 2 = if 0 ≤ x then x / 2 else -((-x) / 2) := by
  split
  · rw [Int.tdiv_eq_ediv] <;> omega
  · have h3 : x = -(-x) := by omega
    rw [h3, Int.neg_tdiv, Int.tdiv_eq_ediv] <;> simp
    omega

theorem cdiv_two (x : Int) (h1 : INT_MIN ≤ x) (h2 : x ≤ INT_MAX) :
    cdiv x 2 = .ok (x.tdiv 2) := by
  unfold cdiv
  rw [if_neg (by decide)]
  apply chk_ok <;> rw [tdiv_two_eq] <;> simp only [INT_MIN, INT_MAX] at * <;> split <;> omega

theorem cabs_ok (x : Int) (h1 : INT_MIN < x) (h2 : x ≤ INT_MAX) : cabs x = .ok |x| := by
  unfold cabs
  rw [Int.natCast_natAbs]
  apply chk_ok <;> simp only [INT_MIN, INT_MAX] at * <;> [skip; skip] <;>
    rcases abs_cases x with ⟨h, _⟩ | ⟨h, _⟩ <;> omega

theorem cdiv_abs (x : Int) (hx : x ≠ 0) :
    cdiv x |x| = .ok (if 0 < x then 1 else -1) := by
  unfold cdiv
  rw [if_neg (by simpa using hx)]
  have h : x.tdiv |x| = if 0 < x then 1 else -1 := by
    split
    · rename_i hp
      rw [abs_of_pos hp, Int.tdiv_self hx]
    · rename_i hp
      have hn : x < 0 := by omega
      rw [abs_of_neg hn, Int.tdiv_neg, Int.tdiv_self hx]
  rw [h]
  split <;> rfl

/-- C5. The channel index table: the nine neutrino pairs of the spec map to
0..8 in the listed order, negating both identifiers adds 9, and the eighteen
same-sign channels enumerate the columns 0..17 one-to-one. -/
theorem channel_index_table :
    ChannelCacheIdx 12 12 = .ok 0 ∧ ChannelCacheIdx 14 12 = .ok 1 ∧
    ChannelCacheIdx 16 12 = .ok 2 ∧ ChannelCacheIdx 12 14 = .ok 3 ∧
    ChannelCacheIdx 14 14 = .ok 4 ∧ ChannelCacheIdx 16 14 = .ok 5 ∧
    ChannelCacheIdx 12 16 = .ok 6 ∧ ChannelCacheIdx 14 16 = .ok 7 ∧
    ChannelCacheIdx 16 16 = .ok 8 ∧
    (∀ b ∈ [12, 14, 16], ∀ a ∈ [(12 : Int), 14, 16],
      ChannelCacheIdx (-b) (-a) = (ChannelCacheIdx b a).map (· + 9)) ∧
    sameSignChannels.map (fun p => ChannelCacheIdx p.1 p.2)
      = (List.range 18).map (fun k => Except.ok (k : Int)) := by
  decide

/-- C6. On all 36 pairs of the documented domain `ChannelCacheIdx` returns a
value (no division by zero, no overflow), the value is the closed form
`antiBlock + 3*j + i` of the spec, it ignores the sign of `flavAfter`, and it
is a column index in `[0, 18)`. -/
theorem channel_index_closed_form :
    ∀ b ∈ flavours, ∀ a ∈ flavours,
      ChannelCacheIdx b a = .ok (specIndex b a) ∧
      ChannelCacheIdx b (-a) = ChannelCacheIdx b a ∧
      0 ≤ specIndex b a ∧ specIndex b a < 18 := by
  decide

theorem ChannelCacheIdx_unchecked (b a : Int) (hb0 : b ≠ 0)
    (hb : |b| ≤ 2 ^ 30) (ha : |a| ≤ 2 ^ 29) :
    ChannelCacheIdx b a = .ok ((if 0 < b then 0 else 9)
      + (3 * (|a| - 12).tdiv 2 + (|b| - 12).tdiv 2)) := by
  have hb1 := abs_nonneg b
  have ha1 := abs_nonneg a
  have e1 : cabs b = .ok |b| := by
    apply cabs_ok <;> simp only [INT_MIN, INT_MAX] <;> rcases abs_cases b with ⟨h, _⟩ | ⟨h, _⟩ <;> omega
  have e2 : cabs a = .ok |a| := by
    apply cabs_ok <;> simp only [INT_MIN, INT_MAX] <;> rcases abs_cases a with ⟨h, _⟩ | ⟨h, _⟩ <;> omega
  have tb : ∀ x : Int, -12 ≤ x → -6 ≤ x.tdiv 2 ∧ 2 * x.tdiv 2 ≤ (if 0 ≤ x then x else 0) := by
    intro x hx
    rw [tdiv_two_eq]
    split <;> omega
  have e3 : cdiv b |b| = .ok (if 0 < b then 1 else -1) := cdiv_abs b hb0
  have e4 : chk (|b| - 12) = .ok (|b| - 12) := by
    apply chk_ok <;> simp only [INT_MIN, INT_MAX] <;> omega
  have e5 : cdiv (|b| - 12) 2 = .ok ((|b| - 12).tdiv 2) := by
    apply cdiv_two <;> simp only [INT_MIN, INT_MAX] <;> omega
  have e6 : chk (|a| - 12) = .ok (|a| - 12) := by
    apply chk_ok <;> simp only [INT_MIN, INT_MAX] <;> omega
  have e7 : cdiv (|a| - 12) 2 = .ok ((|a| - 12).tdiv 2) := by
    apply cdiv_two <;> simp only [INT_MIN, INT_MAX] <;> omega
  obtain ⟨i1, i2⟩ := tb (|b| - 12) (by omega)
  obtain ⟨j1, j2⟩ := tb (|a| - 12) (by omega)
  generalize (|b| - 12).tdiv 2 = i at *
  generalize (|a| - 12).tdiv 2 = j at *
  have i3 : i ≤ 2 ^ 29 := by split at i2 <;> omega
  have j3 : j ≤ 2 ^ 28 := by split at j2 <;> omega
  have f1 : chk (1 - 1) = .ok 0 := by decide
  have f2 : cdiv 0 2 = .ok 0 := by decide
  have f3 : chk (0 * 9) = .ok 0 := by decide
  have g1 : chk (1 - -1) = .ok 2 := by decide
  have g2 : cdiv 2 2 = .ok 1 := by decide
  have g3 : chk (1 * 9) = .ok 9 := by decide
  have e8 : chk (3 * j) = .ok (3 * j) := by
    apply chk_ok <;> simp only [INT_MIN, INT_MAX] <;> omega
  have e9 : chk (3 * j + i) = .ok (3 * j + i) := by
    apply chk_ok <;> simp only [INT_MIN, INT_MAX] <;> omega
  by_cases hp : 0 < b
  · have e10 : chk (0 + (3 * j + i)) = .ok (0 + (3 * j + i)) := by
      apply chk_ok <;> simp only [INT_MIN, INT_MAX] <;> omega
    simp only [ChannelCacheIdx, bind, Except.bind, pure, Except.pure, e1, e2, e3, e4, e5, e6,
      e7, e8, e9, if_pos hp, f1, f2, f3, e10]
  · have e10 : chk (9 + (3 * j + i)) = .ok (9 + (3 * j + i)) := by
      apply chk_ok <;> simp only [INT_MIN, INT_MAX] <;> omega
    simp only [ChannelCacheIdx, bind, Except.bind, pure, Except.pure, e1, e2, e3, e4, e5, e6,
      e7, e8, e9, if_neg hp, g1, g2, g3, e10]

/-- C6, witness: the mixed-sign pair `(-14, 16)`. -/
theorem channel_index_closed_form_witness :
    (-14 : Int) ∈ flavours ∧ (16 : Int) ∈ flavours ∧
    ChannelCacheIdx (-14) 16 = .ok (specIndex (-14) 16) ∧
    ChannelCacheIdx (-14) (-16) = ChannelCacheIdx (-14) 16 ∧
    0 ≤ specIndex (-14) 16 ∧ specIndex (-14) 16 < 18 :=
  ⟨by decide, by decide, channel_index_closed_form (-14) (by decide) 16 (by decide)⟩

/-- C7, as amended. `ChannelCacheIdx` validates nothing: for identifiers of
magnitude at most `2^30` (before) and `2^29` (after), whatever their value,
a non-zero `flavBefore` yields the integer `antiBlock + 3*j + i` computed with
C's truncating division, and `flavBefore = 0` is a division by zero. -/
theorem channel_index_unvalidated (b a : Int) (hb : |b| ≤ 2 ^ 30) (ha : |a| ≤ 2 ^ 29) :
    (b ≠ 0 → ChannelCacheIdx b a = .ok ((if 0 < b then 0 else 9)
      + (3 * (|a| - 12).tdiv 2 + (|b| - 12).tdiv 2))) ∧
    (b = 0 → ChannelCacheIdx b a = .error .divideByZero) := by
  refine ⟨fun h0 => ChannelCacheIdx_unchecked b a h0 hb ha, fun h0 => ?_⟩
  subst h0
  simp only [ChannelCacheIdx, bind, Except.bind]
  rfl

/-- C7, witness: the off-domain pair `(18, 30)`. -/
theorem channel_index_unvalidated_witness :
    (|(18 : Int)| ≤ 2 ^ 30 ∧ |(30 : Int)| ≤ 2 ^ 29) ∧
    ((18 : Int) ≠ 0 → ChannelCacheIdx 18 30 = .ok ((if 0 < (18 : Int) then 0 else 9)
      + (3 * (|(30 : Int)| - 12).tdiv 2 + (|(18 : Int)| - 12).tdiv 2))) ∧
    ((18 : Int) = 0 → ChannelCacheIdx 18 30 = .error .divideByZero) :=
  ⟨by decide, channel_index_unvalidated 18 30 (by decide) (by decide)⟩

/-- C7, counterexample: the identifiers 13, 18 and -11 are not flavours, yet
`ChannelCacheIdx` returns a column index for them, not an error. -/
theorem channel_index_no_UndefinedChannel :
    ChannelCacheIdx 13 12 = .ok 0 ∧ ChannelCacheIdx 18 12 = .ok 3 ∧
    ChannelCacheIdx (-11) 12 = .ok 9 ∧ ChannelCacheIdx 12 13 = .ok 0 := by
  decide

/-! ## The cache: refill and query lemmas -/

section CacheLemmas
variable {D T : Type}

theorem expand_length [Neg D] (E : List D) : (expand E).length = E.length + E.length := by
  simp [expand]

theorem reshape_of_ok {B M : ArrayXX T} {N : Nat} (h : reshape B N = .ok M) :
    M = ⟨N, 18, fun r c => if c < 9 then B.coeffs r c else B.coeffs (N + r) (c - 9)⟩ := by
  unfold reshape ArrayXX.block at h
  simp only [bind, Except.bind, pure, Except.pure] at h
  split_ifs at h with h1 h2
  simp only [Except.ok.injEq] at h
  rw [← h]
  simp

theorem reshape_shape [Neg D] {engine : Engine D T} (hs : EngineShape engine) (E : List D)
    (rho L : T) (p : OscParameters T) :
    reshape (engine (expand E) rho L p) E.length = .ok (specMatrix engine E rho L p) := by
  obtain ⟨hr, hc⟩ := hs (expand E) rho L p
  unfold reshape ArrayXX.block
  simp only [bind, Except.bind, pure, Except.pure, hr, hc, expand_length]
  simp [specMatrix]

theorem FillCacheWith_of_ok [Neg D] {engine : Engine D T} {s s' : OscCalcDMP D T}
    {E : List D} (h : FillCacheWith engine s E = .ok s') : s' = specRefill engine s E := by
  unfold FillCacheWith FillCache at h
  simp only [bind, Except.bind, pure, Except.pure] at h
  split at h
  · simp at h
  · rename_i M hM
    have := reshape_of_ok hM
    simp only [Except.ok.injEq] at h
    rw [← h, this]
    rfl

theorem FillCacheWith_shape [Neg D] {engine : Engine D T} (hs : EngineShape engine)
    (s : OscCalcDMP D T) (E : List D) :
    FillCacheWith engine s E = .ok (specRefill engine s E) := by
  unfold FillCacheWith FillCache
  have hr : reshape (engine (SetCachedEnergies s E).fCache.ENERGIES (SetCachedEnergies s E).fRho
      (SetCachedEnergies s E).fL (currentParams (SetCachedEnergies s E)))
      (SetCachedEnergies s E).fCache.energies.length
      = .ok (specMatrix engine E s.fRho s.fL (currentParams s)) :=
    reshape_shape hs E s.fRho s.fL (currentParams s)
  simp only [bind, Except.bind, pure, Except.pure, hr]
  rfl

theorem paramsAreCached_iff [DecidableEq T] (s : OscCalcDMP D T) :
    ParamsAreCached s = true ↔ currentParams s = s.fCache.parameters := by
  obtain ⟨a1, a2, a3, a4, a5, a6, a7, a8, ⟨e, ee, m, ⟨b1, b2, b3, b4, b5, b6, b7, b8⟩, it⟩, lg⟩ := s
  simp [ParamsAreCached, currentParams, and_assoc]

theorem flavour_index {b a : Int} (hb : b ∈ flavours) (ha : a ∈ flavours) :
    ∃ c : Int, ChannelCacheIdx b a = .ok c ∧ 0 ≤ c ∧ c < 18 := by
  have h : ∀ b ∈ flavours, ∀ a ∈ flavours,
      ChannelCacheIdx b a = .ok (specIndex b a) ∧ 0 ≤ specIndex b a ∧ specIndex b a < 18 := by
    decide
  exact ⟨_, h b hb a ha⟩

theorem col_ok (M : ArrayXX T) {c : Int} (h0 : 0 ≤ c) (h1 : c < (M.cols : Int)) :
    M.col c = .ok (column M c) := by
  simp [ArrayXX.col, column, h0, h1]

theorem coeff_ok (M : ArrayXX T) {r : Nat} {c : Int} (hr : r < M.rows) (h0 : 0 ≤ c)
    (h1 : c < (M.cols : Int)) : M.coeff r c = .ok (M.coeffs r c.toNat) := by
  simp [ArrayXX.coeff, hr, h0, h1]

/-- The calculator after a vector query that returned. -/
theorem PVec_state [DecidableEq D] [Neg D] [DecidableEq T] {engine : Engine D T}
    {s s' : OscCalcDMP D T} {b a : Int} {E : List D} {v : List T}
    (h : PVec engine s b a E = .ok (v, s')) :
    s' = afterVec engine s E := by
  unfold afterVec
  unfold PVec at h
  simp only [bind, Except.bind, pure, Except.pure] at h
  split_ifs at h with hh
  · have : vecHit s E = true := hh
    rw [this]
    split at h
    · simp at h
    · split at h
      · simp at h
      · simp only [Except.ok.injEq, Prod.mk.injEq] at h
        simp [h.2]
  · have : vecHit s E = false := by simpa [vecHit] using hh
    rw [this]
    split at h
    · simp at h
    · rename_i s1 hs1
      have e1 := FillCacheWith_of_ok hs1
      split at h
      · simp at h
      · split at h
        · simp at h
        · simp only [Except.ok.injEq, Prod.mk.injEq] at h
          simp [← h.2, e1]

theorem PScalar_state [DecidableEq D] [Neg D] [DecidableEq T] {engine : Engine D T}
    {isVar : Bool} {s s' : OscCalcDMP D T} {b a : Int} {e : D} {v : T}
    (h : PScalar engine isVar s b a e = .ok (v, s')) :
    s' = afterScalar engine isVar s e := by
  unfold afterScalar
  unfold PScalar at h
  simp only [bind, Except.bind, pure, Except.pure] at h
  split_ifs at h with hh
  · have : scalarHit isVar s e = true := hh
    rw [this]
    split at h
    · simp at h
    · split at h
      · simp at h
      · simp only [Except.ok.injEq, Prod.mk.injEq] at h
        simp [h.2]
  · have : scalarHit isVar s e = false := by simpa [scalarHit] using hh
    rw [this]
    split at h
    · simp at h
    · rename_i s1 hs1
      have e1 := FillCacheWith_of_ok hs1
      split at h
      · simp at h
      · split at h
        · simp at h
        · simp only [Except.ok.injEq, Prod.mk.injEq] at h
          simp [← h.2, e1]

theorem PLoose_state [DecidableEq D] [Neg D] [DecidableEq T] {engine : Engine D T}
    {isVar : Bool} {s s' : OscCalcDMP D T} {b a : Int} {e : D} {v : T}
    (h : PLoose engine isVar s b a e true = .ok (v, s')) : s' = s := by
  unfold PLoose at h
  simp only [bind, Except.bind, pure, Except.pure, if_true] at h
  split at h
  · simp at h
  · split at h
    · simp at h
    · simp only [Except.ok.injEq, Prod.mk.injEq] at h
      exact h.2.symm

theorem CacheInv_specRefill [Neg D] (engine : Engine D T) (s : OscCalcDMP D T) (E : List D) :
    CacheInv engine (specRefill engine s E) :=
  ⟨rfl, Or.inr rfl⟩

theorem CacheInv_afterVec [DecidableEq D] [Neg D] [DecidableEq T] {engine : Engine D T}
    {s : OscCalcDMP D T} (h : CacheInv engine s) (E : List D) :
    CacheInv engine (afterVec engine s E) := by
  unfold afterVec
  split
  · exact h
  · exact CacheInv_specRefill engine s E

theorem CacheInv_afterScalar [DecidableEq D] [Neg D] [DecidableEq T] {engine : Engine D T}
    {s : OscCalcDMP D T} (h : CacheInv engine s) (isVar : Bool) (e : D) :
    CacheInv engine (afterScalar engine isVar s e) := by
  unfold afterScalar
  split
  · exact h
  · exact CacheInv_specRefill engine s [e]

theorem setParam_fCache (f : ParamField) (v : T) (s : OscCalcDMP D T) :
    (setParam f v s).fCache = s.fCache := by
  cases f <;> rfl

theorem setParam_engineLog (f : ParamField) (v : T) (s : OscCalcDMP D T) :
    (setParam f v s).engineLog = s.engineLog := by
  cases f <;> rfl

theorem Reachable.cacheInv [DecidableEq D] [Neg D] [DecidableEq T] [Inhabited T]
    {engine : Engine D T} {isVar : Bool} {s : OscCalcDMP D T}
    (h : Reachable engine isVar s) : CacheInv engine s := by
  induction h with
  | fresh cur cached => exact ⟨rfl, Or.inl rfl⟩
  | setParam f v _ ih =>
    unfold CacheInv at *
    rw [setParam_fCache]
    exact ih
  | copy _ ih => exact ih
  | vector b a E _ hq ih =>
    rw [PVec_state hq]
    exact CacheInv_afterVec ih E
  | scalar b a e _ hq ih =>
    rw [PScalar_state hq]
    exact CacheInv_afterScalar ih isVar e
  | loose b a e fl _ hq ih =>
    cases fl
    · have hq' : PScalar engine isVar _ b a e = .ok _ := hq
      rw [PScalar_state hq']
      exact CacheInv_afterScalar ih isVar e
    · rw [PLoose_state hq]
      exact ih

theorem cacheExists_ne_nil {s : OscCalcDMP D T} (h : cacheExists s = true) :
    s.fCache.energies ≠ [] := by
  intro h0
  simp [cacheExists, h0] at h

/-- On a hit the stored matrix is the one a recomputation would give. -/
theorem afterVec_probabilities [DecidableEq D] [Neg D] [DecidableEq T] {engine : Engine D T}
    {s : OscCalcDMP D T} (h : CacheInv engine s) (E : List D) :
    (afterVec engine s E).fCache.probabilities
      = specMatrix engine E s.fRho s.fL (currentParams s) := by
  unfold afterVec
  split
  · rename_i hh
    simp only [vecHit, Bool.and_eq_true, decide_eq_true_eq] at hh
    obtain ⟨⟨h1, h2⟩, h3⟩ := hh
    rcases h.2 with h | h
    · exact absurd h (cacheExists_ne_nil h1)
    · rw [h, ← (paramsAreCached_iff s).1 h2, h3]
      rfl
  · rfl

theorem PVec_eval [DecidableEq D] [Neg D] [DecidableEq T] {engine : Engine D T}
    (hs : EngineShape engine) {s : OscCalcDMP D T} {E : List D}
    (hp : (afterVec engine s E).fCache.probabilities
      = specMatrix engine E s.fRho s.fL (currentParams s))
    {b a : Int} {c : Int} (hc : ChannelCacheIdx b a = .ok c) (h0 : 0 ≤ c) (h18 : c < 18) :
    PVec engine s b a E
      = .ok (column (specMatrix engine E s.fRho s.fL (currentParams s)) c,
          afterVec engine s E) := by
  have hcol : (specMatrix engine E s.fRho s.fL (currentParams s)).col c
      = .ok (column (specMatrix engine E s.fRho s.fL (currentParams s)) c) :=
    col_ok _ h0 (by simpa [specMatrix] using h18)
  unfold PVec
  by_cases hh : vecHit s E = true
  · have hh' : (cacheExists s && ParamsAreCached s && decide (s.fCache.energies = E)) = true := hh
    simp only [afterVec, hh, if_true] at hp ⊢
    rw [if_pos hh']
    simp only [bind, Except.bind, pure, Except.pure, hc, hp, hcol]
  · have hh' : ¬ (cacheExists s && ParamsAreCached s && decide (s.fCache.energies = E)) = true := hh
    have hf : vecHit s E = false := by simpa using hh
    have hcol' : (specRefill engine s E).fCache.probabilities.col c
        = .ok (column (specMatrix engine E s.fRho s.fL (currentParams s)) c) := hcol
    rw [if_neg hh']
    simp only [bind, Except.bind, pure, Except.pure, hc, FillCacheWith_shape hs, hcol', afterVec,
      hf, Bool.false_eq_true, if_false]

end CacheLemmas

/-! ## The vector query -/

section VectorQuery

variable {D T : Type}

theorem column_length (M : ArrayXX T) (c : Int) : (column M c).length = M.rows := by
  simp [column]

theorem column_getElem? (M : ArrayXX T) (c : Int) {r : Nat} (h : r < M.rows) :
    (column M c)[r]? = some (M.coeffs r c.toNat) := by
  simp [column, List.getElem?_map, List.getElem?_range h]

theorem tableEngine_shape : EngineShape tableEngine := by
  intro EE rho L p
  exact ⟨rfl, rfl⟩

/-- A miss of the vector query, in any state: one refill with the requested
list. -/
theorem PVec_miss [DecidableEq D] [Neg D] [DecidableEq T] {engine : Engine D T}
    (hs : EngineShape engine) {s : OscCalcDMP D T} {E : List D} (hm : vecHit s E = false)
    {b a : Int} {c : Int} (hc : ChannelCacheIdx b a = .ok c) (h0 : 0 ≤ c) (h18 : c < 18) :
    PVec engine s b a E
      = .ok (column (specMatrix engine E s.fRho s.fL (currentParams s)) c,
          specRefill engine s E) := by
  have ha : afterVec engine s E = specRefill engine s E := by simp [afterVec, hm]
  have h := PVec_eval hs (s := s) (E := E) (by rw [ha]; rfl) hc h0 h18
  rw [ha] at h
  exact h

theorem warmCalc_reachable : Reachable tableEngine false warmCalc :=
  Reachable.vector 12 12 [1, 2, 3] (Reachable.fresh sampleParams sampleParams)
    (PVec_miss tableEngine_shape (s := sampleCalc) (E := [1, 2, 3]) (by decide)
      (c := 0) (by decide) (by decide) (by decide))

/-- C1. Cache transparency: in every reachable state, for every energy list
`E` and every pair of flavours, the vector query returns a sequence of length
`|E|` whose entry `r` is the cell `(r, ChannelCacheIdx(before, after))` of the
matrix assembled from the engine's output for the expanded list and the
current density, baseline and parameters. -/
theorem cache_transparency [DecidableEq D] [Neg D] [DecidableEq T] [Inhabited T]
    (engine : Engine D T) (isVar : Bool) (hshape : EngineShape engine)
    (s : OscCalcDMP D T) (hs : Reachable engine isVar s) (E : List D) (b a : Int)
    (hb : b ∈ flavours) (ha : a ∈ flavours) :
    ∃ (c : Int) (v : List T) (s' : OscCalcDMP D T),
      ChannelCacheIdx b a = .ok c ∧ 0 ≤ c ∧ c < 18 ∧
      PVec engine s b a E = .ok (v, s') ∧ v.length = E.length ∧
      ∀ r, r < E.length →
        v[r]? = some ((specMatrix engine E s.fRho s.fL (currentParams s)).coeffs r c.toNat) := by
  obtain ⟨c, hc, h0, h18⟩ := flavour_index hb ha
  refine ⟨c, _, _, hc, h0, h18,
    PVec_eval hshape (afterVec_probabilities hs.cacheInv E) hc h0 h18, ?_, ?_⟩
  · rw [column_length]; rfl
  · intro r hr
    exact column_getElem? _ c hr

/-- C1, witness: the example cache holding `[1, 2, 3]`, queried on the same
list with unchanged parameters, so that the answer is served from the cache
(`vecHit` holds), and the channel `(12, -14)`. -/
theorem cache_transparency_witness :
    EngineShape tableEngine ∧ Reachable tableEngine false warmCalc ∧
    (12 : Int) ∈ flavours ∧ (-14 : Int) ∈ flavours ∧
    vecHit warmCalc [1, 2, 3] = true ∧
    ∃ (c : Int) (v : List Int) (s' : OscCalcDMP Int Int),
      ChannelCacheIdx 12 (-14) = .ok c ∧ 0 ≤ c ∧ c < 18 ∧
      PVec tableEngine warmCalc 12 (-14) [1, 2, 3] = .ok (v, s') ∧
      v.length = [(1 : Int), 2, 3].length ∧
      ∀ r, r < [(1 : Int), 2, 3].length →
        v[r]? = some ((specMatrix tableEngine [1, 2, 3] warmCalc.fRho warmCalc.fL
          (currentParams warmCalc)).coeffs r c.toNat) :=
  ⟨tableEngine_shape, warmCalc_reachable, by decide, by decide, by decide,
    cache_transparency tableEngine false tableEngine_shape warmCalc warmCalc_reachable
      [1, 2, 3] 12 (-14) (by decide) (by decide)⟩

theorem afterVec_params [DecidableEq D] [Neg D] [DecidableEq T] (engine : Engine D T)
    (s : OscCalcDMP D T) (E : List D) :
    currentParams (afterVec engine s E) = currentParams s ∧
    (afterVec engine s E).fRho = s.fRho ∧ (afterVec engine s E).fL = s.fL := by
  unfold afterVec
  split <;> exact ⟨rfl, rfl, rfl⟩

theorem vecHit_afterVec [DecidableEq D] [Neg D] [DecidableEq T] (engine : Engine D T)
    (s : OscCalcDMP D T) {E : List D} (h0 : E ≠ []) (h18 : E.length ≠ 18) :
    vecHit (afterVec engine s E) E = true := by
  unfold afterVec
  split
  · assumption
  · have hp : ParamsAreCached (specRefill engine s E) = true :=
      (paramsAreCached_iff _).2 rfl
    have hl : E.length ≠ 0 := fun h => h0 (List.length_eq_zero.1 h)
    have hce : cacheExists (specRefill engine s E) = true := by
      simp [cacheExists, specRefill, specMatrix, h18, hl]
    have he : (specRefill engine s E).fCache.energies = E := rfl
    simp only [vecHit, hp, hce, he, decide_True, Bool.and_self]

theorem afterVec_fixed [DecidableEq D] [Neg D] [DecidableEq T] (engine : Engine D T)
    (s : OscCalcDMP D T) {E : List D} (h0 : E ≠ []) (h18 : E.length ≠ 18) :
    afterVec engine (afterVec engine s E) E = afterVec engine s E := by
  have h := vecHit_afterVec engine s h0 h18
  generalize afterVec engine s E = t at h
  simp [afterVec, h]

theorem vecHit_nil [DecidableEq D] [DecidableEq T] (s : OscCalcDMP D T) :
    vecHit s [] = false := by
  by_cases h : s.fCache.energies = [] <;> simp [vecHit, cacheExists, h]

theorem afterVec_nil [DecidableEq D] [Neg D] [DecidableEq T] (engine : Engine D T)
    (s : OscCalcDMP D T) : afterVec engine s [] = specRefill engine s [] := by
  simp [afterVec, vecHit_nil]

theorem iterate_afterVec_nil [DecidableEq D] [Neg D] [DecidableEq T] (engine : Engine D T)
    (n : Nat) (s : OscCalcDMP D T) :
    ((fun t => afterVec engine t [])^[n] s).engineLog.length = s.engineLog.length + n ∧
    ((fun t => afterVec engine t [])^[n] s).fCache.iter = s.fCache.iter + n := by
  induction n generalizing s with
  | zero => exact ⟨rfl, rfl⟩
  | succ n ih =>
    rw [Function.iterate_succ_apply]
    obtain ⟨h1, h2⟩ := ih (afterVec engine s [])
    rw [h1, h2, afterVec_nil]
    simp only [specRefill, List.length_append, List.length_singleton]
    omega

theorem PVecTimes_eval [DecidableEq D] [Neg D] [DecidableEq T] {engine : Engine D T}
    (hs : EngineShape engine) {b a : Int} {c : Int} (hc : ChannelCacheIdx b a = .ok c)
    (h0 : 0 ≤ c) (h18 : c < 18) (E : List D) (n : Nat) (s : OscCalcDMP D T)
    (hinv : CacheInv engine s) :
    PVecTimes engine b a E n s
      = .ok (List.replicate n (column (specMatrix engine E s.fRho s.fL (currentParams s)) c),
          (fun t => afterVec engine t E)^[n] s) := by
  induction n generalizing s with
  | zero => rfl
  | succ n ih =>
    obtain ⟨p1, p2, p3⟩ := afterVec_params engine s E
    have h1 := PVec_eval hs (afterVec_probabilities hinv E) hc h0 h18
    have h2 := ih (afterVec engine s E) (CacheInv_afterVec hinv E)
    rw [p1, p2, p3] at h2
    simp only [PVecTimes, h1, h2, Function.iterate_succ_apply, List.replicate_succ]

/-- C2, as amended. After a vector query from a reachable state, any number of
further calls with the same arguments return the same sequence; when the list
is non-empty and its length is not 18 they leave the whole calculator (cache,
revision, engine log) unchanged, and when the list is empty each of them
invokes the engine once and increments the revision. -/
theorem vector_query_idempotent [DecidableEq D] [Neg D] [DecidableEq T] [Inhabited T]
    (engine : Engine D T) (isVar : Bool) (hshape : EngineShape engine)
    (s : OscCalcDMP D T) (hs : Reachable engine isVar s) (E : List D) (b a : Int)
    (hb : b ∈ flavours) (ha : a ∈ flavours) :
    ∃ (v : List T) (s1 : OscCalcDMP D T), PVec engine s b a E = .ok (v, s1) ∧
      ∀ n : Nat, ∃ sn : OscCalcDMP D T,
        PVecTimes engine b a E n s1 = .ok (List.replicate n v, sn) ∧
        (E ≠ [] → E.length ≠ 18 → sn = s1) ∧
        (E = [] → sn.engineLog.length = s1.engineLog.length + n ∧
          sn.fCache.iter = s1.fCache.iter + n) := by
  obtain ⟨c, hc, h0, h18⟩ := flavour_index hb ha
  have hinv := hs.cacheInv
  obtain ⟨p1, p2, p3⟩ := afterVec_params engine s E
  refine ⟨_, _, PVec_eval hshape (afterVec_probabilities hinv E) hc h0 h18, fun n => ?_⟩
  have h2 := PVecTimes_eval hshape hc h0 h18 E n (afterVec engine s E) (CacheInv_afterVec hinv E)
  rw [p1, p2, p3] at h2
  refine ⟨_, h2, fun e0 e18 => ?_, fun e0 => ?_⟩
  · have hfix : (fun t => afterVec engine t E) (afterVec engine s E) = afterVec engine s E :=
      afterVec_fixed engine s e0 e18
    exact @Function.iterate_fixed _ (fun t => afterVec engine t E) (afterVec engine s E) hfix n
  · subst e0
    exact iterate_afterVec_nil engine n _

/-- C2, witness: the fresh example calculator, the list `[1, 2, 3]` and the
channel `(12, 12)`. -/
theorem vector_query_idempotent_witness :
    EngineShape tableEngine ∧ Reachable tableEngine false sampleCalc ∧
    (12 : Int) ∈ flavours ∧ (12 : Int) ∈ flavours ∧
    ∃ (v : List Int) (s1 : OscCalcDMP Int Int),
      PVec tableEngine sampleCalc 12 12 [1, 2, 3] = .ok (v, s1) ∧
      ∀ n : Nat, ∃ sn : OscCalcDMP Int Int,
        PVecTimes tableEngine 12 12 [1, 2, 3] n s1 = .ok (List.replicate n v, sn) ∧
        ([(1 : Int), 2, 3] ≠ [] → [(1 : Int), 2, 3].length ≠ 18 → sn = s1) ∧
        ([(1 : Int), 2, 3] = [] → sn.engineLog.length = s1.engineLog.length + n ∧
          sn.fCache.iter = s1.fCache.iter + n) :=
  ⟨tableEngine_shape, Reachable.fresh _ _, by decide, by decide,
    vector_query_idempotent tableEngine false tableEngine_shape sampleCalc
      (Reachable.fresh _ _) [1, 2, 3] 12 12 (by decide) (by decide)⟩

/-- C2, counterexample: on the empty energy list the second of two
consecutive vector queries invokes the engine again and increments the
revision. -/
theorem vector_query_empty_list_refills :
    ∃ v1 s1 v2 s2, PVec tableEngine sampleCalc 12 12 [] = .ok (v1, s1) ∧
      PVec tableEngine s1 12 12 [] = .ok (v2, s2) ∧
      s2.engineLog.length = s1.engineLog.length + 1 ∧
      s2.fCache.iter = s1.fCache.iter + 1 :=
  ⟨_, _, _, _, rfl, rfl, rfl, rfl⟩

theorem paramsAreCached_afterVec [DecidableEq D] [Neg D] [DecidableEq T] (engine : Engine D T)
    (s : OscCalcDMP D T) (E : List D) : ParamsAreCached (afterVec engine s E) = true := by
  unfold afterVec
  split
  · rename_i h
    simp only [vecHit, Bool.and_eq_true] at h
    exact h.1.2
  · exact (paramsAreCached_iff _).2 rfl

theorem currentParams_setParam_ne (f : ParamField) {x : T} {s : OscCalcDMP D T}
    (h : x ≠ getParam f s) : currentParams (setParam f x s) ≠ currentParams s := by
  cases f <;> simp_all [currentParams, setParam, getParam]

theorem getParam_afterVec [DecidableEq D] [Neg D] [DecidableEq T] (engine : Engine D T)
    (f : ParamField) (s : OscCalcDMP D T) (E : List D) :
    getParam f (afterVec engine s E) = getParam f s := by
  unfold afterVec
  split
  · rfl
  · cases f <;> rfl

/-- C3. Invalidation on parameter change: after a vector query from a
reachable state, setting any one parameter field to a different value makes
`ParamsAreCached` false, and the repeated query invokes the engine exactly
once, increments the revision by one, stores the new current parameters as
the cached ones, stores the matrix assembled from the engine's output for
the new parameters, and returns the column of that matrix. -/
theorem invalidation_on_parameter_change [DecidableEq D] [Neg D] [DecidableEq T]
    [Inhabited T] (engine : Engine D T) (isVar : Bool) (hshape : EngineShape engine)
    (s : OscCalcDMP D T) (hs : Reachable engine isVar s) (E : List D) (b a : Int)
    (hb : b ∈ flavours) (ha : a ∈ flavours) (f : ParamField) (x : T)
    (hx : x ≠ getParam f s) :
    ∃ (v1 : List T) (s1 : OscCalcDMP D T), PVec engine s b a E = .ok (v1, s1) ∧
      ParamsAreCached (setParam f x s1) = false ∧
      ∃ (v2 : List T) (s3 : OscCalcDMP D T),
        PVec engine (setParam f x s1) b a E = .ok (v2, s3) ∧
        s3.engineLog = (setParam f x s1).engineLog ++
          [⟨expand E, (setParam f x s1).fRho, (setParam f x s1).fL,
            currentParams (setParam f x s1)⟩] ∧
        s3.fCache.iter = (setParam f x s1).fCache.iter + 1 ∧
        s3.fCache.energies = E ∧
        currentParams s3 = currentParams (setParam f x s1) ∧
        s3.fCache.parameters = currentParams s3 ∧
        s3.fCache.probabilities = specMatrix engine E (setParam f x s1).fRho
          (setParam f x s1).fL (currentParams (setParam f x s1)) ∧
        ∃ c : Int, ChannelCacheIdx b a = .ok c ∧
          v1 = column (specMatrix engine E s.fRho s.fL (currentParams s)) c ∧
          v2 = column (specMatrix engine E (setParam f x s1).fRho (setParam f x s1).fL
            (currentParams (setParam f x s1))) c := by
  obtain ⟨c, hc, h0, h18⟩ := flavour_index hb ha
  refine ⟨_, _, PVec_eval hshape (afterVec_probabilities hs.cacheInv E) hc h0 h18, ?_⟩
  have hx1 : x ≠ getParam f (afterVec engine s E) := by rwa [getParam_afterVec]
  have hne := currentParams_setParam_ne f hx1
  have hcached : (setParam f x (afterVec engine s E)).fCache.parameters
      = currentParams (afterVec engine s E) := by
    rw [setParam_fCache]
    exact ((paramsAreCached_iff _).1 (paramsAreCached_afterVec engine s E)).symm
  have hpc : ParamsAreCached (setParam f x (afterVec engine s E)) = false := by
    rw [Bool.eq_false_iff]
    intro h
    rw [paramsAreCached_iff, hcached] at h
    exact hne h
  have hm : vecHit (setParam f x (afterVec engine s E)) E = false := by
    simp [vecHit, hpc]
  exact ⟨hpc, _, _, PVec_miss hshape hm hc h0 h18, rfl, rfl, rfl, rfl, rfl, rfl, c, hc, rfl, rfl⟩

/-- C3, witness: the example cache holding `[1, 2, 3]` (the first query is
served from it), and `th13` changed from 4 to 99: the first query returns
the cells computed for `th13 = 4`, the repeated query those computed for
`th13 = 99`. -/
theorem invalidation_on_parameter_change_witness :
    EngineShape tableEngine ∧ Reachable tableEngine false warmCalc ∧
    (12 : Int) ∈ flavours ∧ (16 : Int) ∈ flavours ∧
    (99 : Int) ≠ getParam .th13 warmCalc ∧
    (PVec tableEngine warmCalc 12 16 [1, 2, 3]).map Prod.fst = .ok [1064, 2064, 3064] ∧
    (PVec tableEngine (setParam .th13 99 warmCalc) 12 16 [1, 2, 3]).map Prod.fst
      = .ok [1159, 2159, 3159] ∧
    ∃ (v1 : List Int) (s1 : OscCalcDMP Int Int),
      PVec tableEngine warmCalc 12 16 [1, 2, 3] = .ok (v1, s1) ∧
      ParamsAreCached (setParam .th13 99 s1) = false ∧
      ∃ (v2 : List Int) (s3 : OscCalcDMP Int Int),
        PVec tableEngine (setParam .th13 99 s1) 12 16 [1, 2, 3] = .ok (v2, s3) ∧
        s3.engineLog = (setParam .th13 99 s1).engineLog ++
          [⟨expand [1, 2, 3], (setParam .th13 99 s1).fRho, (setParam .th13 99 s1).fL,
            currentParams (setParam .th13 99 s1)⟩] ∧
        s3.fCache.iter = (setParam .th13 99 s1).fCache.iter + 1 ∧
        s3.fCache.energies = [1, 2, 3] ∧
        currentParams s3 = currentParams (setParam .th13 99 s1) ∧
        s3.fCache.parameters = currentParams s3 ∧
        s3.fCache.probabilities = specMatrix tableEngine [1, 2, 3] (setParam .th13 99 s1).fRho
          (setParam .th13 99 s1).fL (currentParams (setParam .th13 99 s1)) ∧
        ∃ c : Int, ChannelCacheIdx 12 16 = .ok c ∧
          v1 = column (specMatrix tableEngine [1, 2, 3] warmCalc.fRho warmCalc.fL
            (currentParams warmCalc)) c ∧
          v2 = column (specMatrix tableEngine [1, 2, 3] (setParam .th13 99 s1).fRho
            (setParam .th13 99 s1).fL (currentParams (setParam .th13 99 s1))) c :=
  ⟨tableEngine_shape, warmCalc_reachable, by decide, by decide, by decide, rfl, rfl,
    invalidation_on_parameter_change tableEngine false tableEngine_shape warmCalc
      warmCalc_reachable [1, 2, 3] 12 16 (by decide) (by decide) .th13 99 (by decide)⟩

end VectorQuery

/-! ## The scalar queries -/

section ScalarQuery

variable {D T : Type}

/-- The unchecked read, whatever the state: row `std::find(...) - begin()` of
the stored matrix. -/
theorem PLoose_eval [DecidableEq D] [Neg D] [DecidableEq T] (engine : Engine D T)
    (isVar : Bool) (s : OscCalcDMP D T) {b a : Int} {c : Int}
    (hc : ChannelCacheIdx b a = .ok c) (e : D) :
    PLoose engine isVar s b a e true
      = (s.fCache.probabilities.coeff (s.fCache.energies.indexOf e) c).map (fun v => (v, s)) := by
  unfold PLoose
  simp only [bind, Except.bind, pure, Except.pure, hc, if_true]
  cases s.fCache.probabilities.coeff (s.fCache.energies.indexOf e) c <;> rfl

/-- C8, as amended. In every reachable state and for every energy that does
not occur in the stored list, the unchecked scalar query makes no membership
test: `std::find` returns `end()`, the stored matrix is indexed at row =
length of the stored list, and since the matrix has exactly that many rows
the access is out of range (undefined behaviour; no dedicated error). -/
theorem unchecked_lookup_out_of_range [DecidableEq D] [Neg D] [DecidableEq T] [Inhabited T]
    (engine : Engine D T) (isVar : Bool) (s : OscCalcDMP D T)
    (hs : Reachable engine isVar s) (e : D) (he : e ∉ s.fCache.energies) (b a : Int)
    (hb : b ∈ flavours) (ha : a ∈ flavours) :
    s.fCache.energies.indexOf e = s.fCache.energies.length ∧
    s.fCache.probabilities.rows = s.fCache.energies.length ∧
    ∃ c : Int, ChannelCacheIdx b a = .ok c ∧
      PLoose engine isVar s b a e true
        = .error (.coeffOutOfRange s.fCache.energies.length c) := by
  obtain ⟨c, hc, -, -⟩ := flavour_index hb ha
  have hi : s.fCache.energies.indexOf e = s.fCache.energies.length :=
    List.indexOf_eq_length.2 he
  have hr := hs.cacheInv.1
  refine ⟨hi, hr, c, hc, ?_⟩
  rw [PLoose_eval engine isVar s hc e, hi]
  simp [ArrayXX.coeff, hr, Except.map]

/-- C8, witness: the example cache holding `[1, 2, 3]` and the absent
energy 5. -/
theorem unchecked_lookup_out_of_range_witness :
    Reachable tableEngine false warmCalc ∧ (5 : Int) ∉ warmCalc.fCache.energies ∧
    (14 : Int) ∈ flavours ∧ (12 : Int) ∈ flavours ∧
    warmCalc.fCache.energies.indexOf 5 = warmCalc.fCache.energies.length ∧
    warmCalc.fCache.probabilities.rows = warmCalc.fCache.energies.length ∧
    ∃ c : Int, ChannelCacheIdx 14 12 = .ok c ∧
      PLoose tableEngine false warmCalc 14 12 5 true
        = .error (.coeffOutOfRange warmCalc.fCache.energies.length c) :=
  ⟨warmCalc_reachable, by decide, by decide, by decide,
    unchecked_lookup_out_of_range tableEngine false warmCalc warmCalc_reachable 5
      (by decide) 14 12 (by decide) (by decide)⟩

/-- C8, counterexample: in the never-filled state and in a state holding
`[1, 2, 3]`, the unchecked query for an absent energy indexes the stored
matrix at row = length of the stored list (0, respectively 3); the outcome is
the range violation of that read, not a dedicated error. -/
theorem unchecked_lookup_reads_past_the_end :
    sampleCalc.fCache.energies.length = 0 ∧
    PLoose tableEngine false sampleCalc 12 12 1 true = .error (.coeffOutOfRange 0 0) ∧
    (specRefill tableEngine sampleCalc [1, 2, 3]).fCache.energies.length = 3 ∧
    PLoose tableEngine false (specRefill tableEngine sampleCalc [1, 2, 3]) 12 12 5 true
      = .error (.coeffOutOfRange 3 0) :=
  ⟨rfl, rfl, rfl, rfl⟩

theorem specMatrix_rowLocal [DecidableEq D] [Neg D] {engine : Engine D T}
    (hl : RowLocal engine) {E : List D} {e : D} (he : e ∈ E) (rho L : T)
    (p : OscParameters T) {c : Nat} (hc : c < 18) :
    (specMatrix engine E rho L p).coeffs (E.indexOf e) c
      = (specMatrix engine [e] rho L p).coeffs 0 c := by
  have hi : E.indexOf e < E.length := List.indexOf_lt_length.2 he
  have h1 : (expand E)[E.indexOf e]? = some e := by
    unfold expand
    rw [List.getElem?_append_left hi]
    exact List.getElem?_indexOf he
  have h2 : (expand E)[E.length + E.indexOf e]? = some (-e) := by
    unfold expand
    rw [List.getElem?_append_right (by omega)]
    simp [List.getElem?_map, List.getElem?_indexOf he]
  simp only [specMatrix]
  split
  · exact hl _ _ rho L p _ _ e h1 rfl c (by assumption)
  · exact hl _ _ rho L p _ _ (-e) h2 rfl (c - 9) (by omega)

theorem tableEngine_rowLocal : RowLocal tableEngine := by
  intro EE EE' rho L p r r' x h1 h2 c _
  simp only [tableEngine, List.getD_eq_getElem?_getD, h1, h2]

theorem afterVec_energies [DecidableEq D] [Neg D] [DecidableEq T] (engine : Engine D T)
    (s : OscCalcDMP D T) (E : List D) : (afterVec engine s E).fCache.energies = E := by
  unfold afterVec
  split
  · rename_i h
    simp only [vecHit, Bool.and_eq_true, decide_eq_true_eq] at h
    exact h.2
  · rfl

/-- The scalar query from a consistent state, for an engine that honours the
contract: the value a recomputation on the singleton list gives. -/
theorem PScalar_eval [DecidableEq D] [Neg D] [DecidableEq T] {engine : Engine D T}
    (hs : EngineShape engine) (hl : RowLocal engine) (isVar : Bool) {s : OscCalcDMP D T}
    (hinv : CacheInv engine s) {b a : Int} {c : Int} (hc : ChannelCacheIdx b a = .ok c)
    (h0 : 0 ≤ c) (h18 : c < 18) (e : D) :
    PScalar engine isVar s b a e
      = .ok ((specMatrix engine [e] s.fRho s.fL (currentParams s)).coeffs 0 c.toNat,
          afterScalar engine isVar s e) := by
  have hcn : c.toNat < 18 := by omega
  unfold PScalar
  by_cases hh : scalarHit isVar s e = true
  · have hh' : (!isVar && cacheExists s && ParamsAreCached s
        && decide (s.fCache.energies.indexOf e ≠ s.fCache.energies.length)) = true := hh
    simp only [scalarHit, Bool.and_eq_true, decide_eq_true_eq] at hh
    obtain ⟨⟨⟨-, h1⟩, h2⟩, h3⟩ := hh
    have hmem : e ∈ s.fCache.energies := by
      by_contra hn
      exact h3 (List.indexOf_eq_length.2 hn)
    have hlt : s.fCache.energies.indexOf e < s.fCache.energies.length :=
      List.indexOf_lt_length.2 hmem
    have hp : s.fCache.probabilities
        = specMatrix engine s.fCache.energies s.fRho s.fL (currentParams s) := by
      rcases hinv.2 with h | h
      · exact absurd h (cacheExists_ne_nil h1)
      · rw [h, ← (paramsAreCached_iff s).1 h2]
        rfl
    have hv : s.fCache.probabilities.coeff (s.fCache.energies.indexOf e) c
        = .ok ((specMatrix engine [e] s.fRho s.fL (currentParams s)).coeffs 0 c.toNat) := by
      rw [coeff_ok _ (by rw [hinv.1]; exact hlt) h0 (by rw [hp]; simpa [specMatrix] using h18)]
      rw [hp, specMatrix_rowLocal hl hmem _ _ _ hcn]
    rw [if_pos hh']
    simp only [bind, Except.bind, pure, Except.pure, hc, hv, afterScalar, scalarHit, hh', if_true]
  · have hh' : ¬ (!isVar && cacheExists s && ParamsAreCached s
        && decide (s.fCache.energies.indexOf e ≠ s.fCache.energies.length)) = true := hh
    have hf : scalarHit isVar s e = false := by simpa using hh
    have hv : (specRefill engine s [e]).fCache.probabilities.coeff 0 c
        = .ok ((specMatrix engine [e] s.fRho s.fL (currentParams s)).coeffs 0 c.toNat) :=
      coeff_ok _ (by simp [specRefill, specMatrix]) h0 (by simpa [specRefill, specMatrix] using h18)
    rw [if_neg hh']
    simp only [bind, Except.bind, pure, Except.pure, hc, FillCacheWith_shape hs, hv, afterScalar,
      hf, Bool.false_eq_true, if_false]

/-- C9. Fast-path correctness under its precondition, for an engine that
honours the contract of the spec: after a vector query over a list `E` from a
reachable state, for every `e` in `E` (so `E` is non-empty) the unchecked
query returns a value, leaves the calculator unchanged, and that value is the
one the checked scalar query returns from the same state. -/
theorem fast_path_agrees_with_checked [DecidableEq D] [Neg D] [DecidableEq T] [Inhabited T]
    (engine : Engine D T) (isVar : Bool) (hshape : EngineShape engine)
    (hlocal : RowLocal engine) (s : OscCalcDMP D T) (hs : Reachable engine isVar s)
    (E : List D) (e : D) (he : e ∈ E) (b a : Int) (hb : b ∈ flavours) (ha : a ∈ flavours) :
    ∃ (v : List T) (s1 : OscCalcDMP D T) (w : T) (s2 : OscCalcDMP D T),
      PVec engine s b a E = .ok (v, s1) ∧
      PLoose engine isVar s1 b a e true = .ok (w, s1) ∧
      PScalar engine isVar s1 b a e = .ok (w, s2) := by
  obtain ⟨c, hc, h0, h18⟩ := flavour_index hb ha
  have hinv := hs.cacheInv
  have hinv1 := CacheInv_afterVec hinv E
  obtain ⟨p1, p2, p3⟩ := afterVec_params engine s E
  have hsc := PScalar_eval hshape hlocal isVar hinv1 hc h0 h18 e
  rw [p1, p2, p3] at hsc
  refine ⟨_, _, _, _, PVec_eval hshape (afterVec_probabilities hinv E) hc h0 h18, ?_, hsc⟩
  have hlt : E.indexOf e < E.length := List.indexOf_lt_length.2 he
  rw [PLoose_eval engine isVar _ hc e, afterVec_energies, afterVec_probabilities hinv E,
    coeff_ok _ (by simpa [specMatrix] using hlt) h0 (by simpa [specMatrix] using h18),
    specMatrix_rowLocal hlocal he _ _ _ (by omega)]
  rfl

/-- C9, witness: the fresh example calculator, the list `[1, 2, 3]` and the
energy 2. -/
theorem fast_path_agrees_with_checked_witness :
    EngineShape tableEngine ∧ RowLocal tableEngine ∧
    Reachable tableEngine false sampleCalc ∧ (2 : Int) ∈ [(1 : Int), 2, 3] ∧
    (-14 : Int) ∈ flavours ∧ (16 : Int) ∈ flavours ∧
    ∃ (v : List Int) (s1 : OscCalcDMP Int Int) (w : Int) (s2 : OscCalcDMP Int Int),
      PVec tableEngine sampleCalc (-14) 16 [1, 2, 3] = .ok (v, s1) ∧
      PLoose tableEngine false s1 (-14) 16 2 true = .ok (w, s1) ∧
      PScalar tableEngine false s1 (-14) 16 2 = .ok (w, s2) :=
  ⟨tableEngine_shape, tableEngine_rowLocal, Reachable.fresh _ _, by decide, by decide,
    by decide,
    fast_path_agrees_with_checked tableEngine false tableEngine_shape tableEngine_rowLocal
      sampleCalc (Reachable.fresh _ _) [1, 2, 3] 2 (by decide) (-14) 16 (by decide)
      (by decide)⟩

/-- C10. Scalar/vector consistency, for an engine that honours the contract
of the spec: from every reachable state, the vector query on the singleton
list `[e]` and the scalar query on `e` both return, and the first entry of
the vector result is the scalar result. -/
theorem scalar_vector_consistency [DecidableEq D] [Neg D] [DecidableEq T] [Inhabited T]
    (engine : Engine D T) (isVar : Bool) (hshape : EngineShape engine)
    (hlocal : RowLocal engine) (s : OscCalcDMP D T) (hs : Reachable engine isVar s)
    (e : D) (b a : Int) (hb : b ∈ flavours) (ha : a ∈ flavours) :
    ∃ (v : List T) (s1 : OscCalcDMP D T) (w : T) (s2 : OscCalcDMP D T),
      PVec engine s b a [e] = .ok (v, s1) ∧
      PScalar engine isVar s b a e = .ok (w, s2) ∧
      v[0]? = some w := by
  obtain ⟨c, hc, h0, h18⟩ := flavour_index hb ha
  have hinv := hs.cacheInv
  refine ⟨_, _, _, _, PVec_eval hshape (afterVec_probabilities hinv [e]) hc h0 h18,
    PScalar_eval hshape hlocal isVar hinv hc h0 h18 e, ?_⟩
  exact column_getElem? _ c (by simp [specMatrix])

/-- C10, witness: the example cache holding the larger grid `[1, 2, 3]`,
queried for the energy 2. -/
theorem scalar_vector_consistency_witness :
    EngineShape tableEngine ∧ RowLocal tableEngine ∧
    Reachable tableEngine false warmCalc ∧ (12 : Int) ∈ flavours ∧ (-16 : Int) ∈ flavours ∧
    ∃ (v : List Int) (s1 : OscCalcDMP Int Int) (w : Int) (s2 : OscCalcDMP Int Int),
      PVec tableEngine warmCalc 12 (-16) [2] = .ok (v, s1) ∧
      PScalar tableEngine false warmCalc 12 (-16) 2 = .ok (w, s2) ∧
      v[0]? = some w :=
  ⟨tableEngine_shape, tableEngine_rowLocal, warmCalc_reachable, by decide, by decide,
    scalar_vector_consistency tableEngine false tableEngine_shape tableEngine_rowLocal
      warmCalc warmCalc_reachable 2 12 (-16) (by decide) (by decide)⟩

end ScalarQuery

/-! ## The scalar queries: hits, misses and the unchecked lookup -/

section ScalarClaims

variable {D T : Type}

/-- A hit of the scalar query, in a state whose matrix has one row per stored
energy and 18 columns: the stored cell, and nothing changes. -/
theorem PScalar_hit [DecidableEq D] [Neg D] [DecidableEq T] (engine : Engine D T)
    {isVar : Bool} {s : OscCalcDMP D T} {e : D} (hh : scalarHit isVar s e = true)
    (hrows : s.fCache.probabilities.rows = s.fCache.energies.length)
    (hcols : s.fCache.probabilities.cols = 18) {b a : Int} {c : Int}
    (hc : ChannelCacheIdx b a = .ok c) (h0 : 0 ≤ c) (h18 : c < 18) :
    PScalar engine isVar s b a e
      = .ok (s.fCache.probabilities.coeffs (s.fCache.energies.indexOf e) c.toNat, s) := by
  have hh' : (!isVar && cacheExists s && ParamsAreCached s
      && decide (s.fCache.energies.indexOf e ≠ s.fCache.energies.length)) = true := hh
  simp only [scalarHit, Bool.and_eq_true, decide_eq_true_eq] at hh
  have hlt : s.fCache.energies.indexOf e < s.fCache.energies.length :=
    lt_of_le_of_ne List.indexOf_le_length hh.2
  have hv := coeff_ok s.fCache.probabilities (r := s.fCache.energies.indexOf e) (c := c)
    (by rw [hrows]; exact hlt) h0 (by rw [hcols]; exact_mod_cast h18)
  unfold PScalar
  rw [if_pos hh']
  simp only [bind, Except.bind, pure, Except.pure, hc, hv]

theorem calc18_reachable : Reachable tableEngine false calc18 :=
  Reachable.vector 12 12 grid18 (Reachable.fresh sampleParams sampleParams)
    (PVec_miss tableEngine_shape (s := sampleCalc) (E := grid18) (by decide)
      (c := 0) (by decide) (by decide) (by decide))

/-- C11, the code at the failing input. A cache holding exactly 18 energies
was filled by a vector query (one refill), the parameters are unchanged and
the energy 1 is stored, yet the scalar query of the plain type refills the
cache with `[1]`: the engine is invoked again and the revision grows. -/
theorem scalar_hit_lost_at_18 :
    Reachable tableEngine false calc18 ∧ calc18.fCache.iter = 1 ∧
    ParamsAreCached calc18 = true ∧ (1 : Int) ∈ calc18.fCache.energies ∧
    ∃ (v : Int) (s' : OscCalcDMP Int Int),
      PScalar tableEngine false calc18 12 12 1 = .ok (v, s') ∧
      s'.fCache.energies = [1] ∧ s'.fCache.probabilities.rows = 1 ∧
      s'.engineLog.length = calc18.engineLog.length + 1 ∧
      s'.fCache.iter = calc18.fCache.iter + 1 :=
  ⟨calc18_reachable, rfl, by decide, by decide, _, _, rfl, rfl, rfl, rfl, rfl⟩

end ScalarClaims

/-! ## The operations of the file: refill and invariants -/

section OperationClaims

variable {D T : Type}

/-- The calculator after `FillCache()` returned. -/
theorem FillCache_of_ok {engine : Engine D T} {s s' : OscCalcDMP D T}
    (h : FillCache engine s = .ok s') :
    s'.fCache.energies = s.fCache.energies ∧ s'.fCache.ENERGIES = s.fCache.ENERGIES ∧
    s'.fCache.probabilities.rows = s.fCache.energies.length ∧
    s'.fCache.probabilities.cols = 18 ∧
    s'.fCache.parameters = currentParams s ∧ currentParams s' = currentParams s ∧
    s'.fCache.iter = s.fCache.iter + 1 ∧
    s'.engineLog = s.engineLog ++ [⟨s.fCache.ENERGIES, s.fRho, s.fL, currentParams s⟩] := by
  unfold FillCache at h
  simp only [bind, Except.bind, pure, Except.pure] at h
  split at h
  · simp at h
  · rename_i M hM
    have hM' := reshape_of_ok hM
    simp only [Except.ok.injEq] at h
    subst h
    subst hM'
    exact ⟨rfl, rfl, rfl, rfl, rfl, rfl, rfl, rfl⟩

/-- `FillCache()` returns when the stored expanded array is the expansion of
the stored list and the engine honours the shape contract. -/
theorem FillCache_shape [Neg D] {engine : Engine D T} (hs : EngineShape engine)
    {s : OscCalcDMP D T} (hE : s.fCache.ENERGIES = expand s.fCache.energies) :
    ∃ s', FillCache engine s = .ok s' := by
  have hr := reshape_shape hs s.fCache.energies s.fRho s.fL (currentParams s)
  unfold FillCache
  simp only [bind, Except.bind, pure, Except.pure, hE, hr]
  exact ⟨_, rfl⟩

/-- A hit of the vector query, in any state: a read of the stored column,
and nothing changes. -/
theorem PVec_hit [DecidableEq D] [Neg D] [DecidableEq T] (engine : Engine D T)
    {s : OscCalcDMP D T} {E : List D} (hh : vecHit s E = true) {b a : Int} {c : Int}
    (hc : ChannelCacheIdx b a = .ok c) :
    PVec engine s b a E = (s.fCache.probabilities.col c).map (fun v => (v, s)) := by
  have hh' : (cacheExists s && ParamsAreCached s && decide (s.fCache.energies = E)) = true := hh
  unfold PVec
  rw [if_pos hh']
  simp only [bind, Except.bind, pure, Except.pure, hc]
  cases s.fCache.probabilities.col c <;> rfl

/-- A hit of the scalar query, in any state: a read of the stored cell, and
nothing changes. -/
theorem PScalar_hit_read [DecidableEq D] [Neg D] [DecidableEq T] (engine : Engine D T)
    {isVar : Bool} {s : OscCalcDMP D T} {e : D} (hh : scalarHit isVar s e = true)
    {b a : Int} {c : Int} (hc : ChannelCacheIdx b a = .ok c) :
    PScalar engine isVar s b a e
      = (s.fCache.probabilities.coeff (s.fCache.energies.indexOf e) c).map
          (fun v => (v, s)) := by
  have hh' : (!isVar && cacheExists s && ParamsAreCached s
      && decide (s.fCache.energies.indexOf e ≠ s.fCache.energies.length)) = true := hh
  unfold PScalar
  rw [if_pos hh']
  simp only [bind, Except.bind, pure, Except.pure, hc]
  cases s.fCache.probabilities.coeff (s.fCache.energies.indexOf e) c <;> rfl

theorem afterVec_cases [DecidableEq D] [Neg D] [DecidableEq T] (engine : Engine D T)
    (s : OscCalcDMP D T) (E : List D) :
    afterVec engine s E = s ∨ afterVec engine s E = specRefill engine s E := by
  unfold afterVec
  split
  · exact Or.inl rfl
  · exact Or.inr rfl

theorem afterScalar_cases [DecidableEq D] [Neg D] [DecidableEq T] (engine : Engine D T)
    (isVar : Bool) (s : OscCalcDMP D T) (e : D) :
    afterScalar engine isVar s e = s ∨ afterScalar engine isVar s e = specRefill engine s [e] := by
  unfold afterScalar
  split
  · exact Or.inl rfl
  · exact Or.inr rfl

/-- An induction principle for the operations of the file: a property of the
cache and the engine log that holds in the fresh state, is kept by
`FillCache()`, by every refill with a list and, when bare calls are allowed,
by `SetCachedEnergies`, holds in every reached state. -/
theorem reachableOps_invariant [DecidableEq D] [Neg D] [DecidableEq T] [Inhabited T]
    {engine : Engine D T} {isVar bare : Bool} (P : OscCalcDMP D T → Prop)
    (hfresh : ∀ cur cached, P (fresh cur cached))
    (hparam : ∀ s f v, P s → P (setParam f v s))
    (hset : bare = true → ∀ s E, P s → P (SetCachedEnergies s E))
    (hfill : ∀ s s', P s → FillCache engine s = .ok s' → P s')
    (hrefill : ∀ s E, P s → P (specRefill engine s E))
    {s : OscCalcDMP D T} (h : ReachableOps engine isVar bare s) : P s := by
  induction h with
  | fresh cur cached => exact hfresh cur cached
  | setParam f v _ ih => exact hparam _ f v ih
  | setCachedEnergies E hb _ ih => exact hset hb _ E ih
  | fillCache _ hq ih => exact hfill _ _ ih hq
  | fillCacheWith E _ hq ih =>
    rw [FillCacheWith_of_ok hq]
    exact hrefill _ E ih
  | vector b a E _ hq ih =>
    rw [PVec_state hq]
    rcases afterVec_cases engine _ E with h | h <;> rw [h]
    · exact ih
    · exact hrefill _ E ih
  | scalar b a e _ hq ih =>
    rw [PScalar_state hq]
    rcases afterScalar_cases engine isVar _ e with h | h <;> rw [h]
    · exact ih
    · exact hrefill _ [e] ih
  | loose b a e fl _ hq ih =>
    cases fl
    · have hq' : PScalar engine isVar _ b a e = .ok _ := hq
      rw [PScalar_state hq']
      rcases afterScalar_cases engine isVar _ e with h | h <;> rw [h]
      · exact ih
      · exact hrefill _ [e] ih
    · rw [PLoose_state hq]
      exact ih

/-- The expanded array is the expansion of the stored list, in every state
reached by the operations of the file. -/
theorem reachableOps_expanded [DecidableEq D] [Neg D] [DecidableEq T] [Inhabited T]
    {engine : Engine D T} {isVar bare : Bool} {s : OscCalcDMP D T}
    (h : ReachableOps engine isVar bare s) :
    s.fCache.ENERGIES = expand s.fCache.energies := by
  refine @reachableOps_invariant D T _ _ _ _ engine isVar bare
    (fun s => s.fCache.ENERGIES = expand s.fCache.energies) ?_ ?_ ?_ ?_ ?_ s h
  · intro cur cached; rfl
  · intro s f v hP
    show (setParam f v s).fCache.ENERGIES = expand (setParam f v s).fCache.energies
    rw [setParam_fCache]; exact hP
  · intro _ s E _; rfl
  · intro s s' hP hq
    obtain ⟨h1, h2, -⟩ := FillCache_of_ok hq
    rw [h1, h2]; exact hP
  · intro s E _; rfl

/-- The revision counter is the length of the engine log, in every state
reached by the operations of the file. -/
theorem reachableOps_iter_eq [DecidableEq D] [Neg D] [DecidableEq T] [Inhabited T]
    {engine : Engine D T} {isVar bare : Bool} {s : OscCalcDMP D T}
    (h : ReachableOps engine isVar bare s) : s.fCache.iter = s.engineLog.length := by
  refine @reachableOps_invariant D T _ _ _ _ engine isVar bare
    (fun s => s.fCache.iter = s.engineLog.length) ?_ ?_ ?_ ?_ ?_ s h
  · intro cur cached; rfl
  · intro s f v hP
    show (setParam f v s).fCache.iter = (setParam f v s).engineLog.length
    rw [setParam_fCache, setParam_engineLog]; exact hP
  · intro _ s E hP; exact hP
  · intro s s' hP hq
    obtain ⟨-, -, -, -, -, -, h7, h8⟩ := FillCache_of_ok hq
    rw [h7, h8, hP]; simp
  · intro s E hP
    simp only [specRefill, List.length_append, List.length_singleton]
    exact congrArg (· + 1) hP

/-- Without bare calls of `SetCachedEnergies` the stored matrix has one row
per stored energy, and 18 columns when the stored list is non-empty. -/
theorem reachableOps_shape [DecidableEq D] [Neg D] [DecidableEq T] [Inhabited T]
    {engine : Engine D T} {isVar : Bool} {s : OscCalcDMP D T}
    (h : ReachableOps engine isVar false s) :
    s.fCache.probabilities.rows = s.fCache.energies.length ∧
    (s.fCache.energies ≠ [] → s.fCache.probabilities.cols = 18) := by
  refine @reachableOps_invariant D T _ _ _ _ engine isVar false
    (fun s => s.fCache.probabilities.rows = s.fCache.energies.length ∧
      (s.fCache.energies ≠ [] → s.fCache.probabilities.cols = 18)) ?_ ?_ ?_ ?_ ?_ s h
  · intro cur cached; exact ⟨rfl, fun h => absurd rfl h⟩
  · intro s f v hP
    show (setParam f v s).fCache.probabilities.rows = (setParam f v s).fCache.energies.length ∧
      ((setParam f v s).fCache.energies ≠ [] → (setParam f v s).fCache.probabilities.cols = 18)
    rw [setParam_fCache]; exact hP
  · intro hb; exact absurd hb (by decide)
  · intro s s' _ hq
    obtain ⟨h1, -, h3, h4, -⟩ := FillCache_of_ok hq
    exact ⟨by rw [h3, h1], fun _ => h4⟩
  · intro s E _; exact ⟨rfl, fun _ => rfl⟩

theorem reachable_toOps [DecidableEq D] [Neg D] [DecidableEq T] [Inhabited T]
    {engine : Engine D T} {isVar : Bool} (bare : Bool) {s : OscCalcDMP D T}
    (h : Reachable engine isVar s) : ReachableOps engine isVar bare s := by
  induction h with
  | fresh cur cached => exact ReachableOps.fresh cur cached
  | setParam f v _ ih => exact ReachableOps.setParam f v ih
  | copy _ ih => exact ih
  | vector b a E _ hq ih => exact ReachableOps.vector b a E ih hq
  | scalar b a e _ hq ih => exact ReachableOps.scalar b a e ih hq
  | loose b a e fl _ hq ih => exact ReachableOps.loose b a e fl ih hq

theorem warmCalc_reachableOps (bare : Bool) : ReachableOps tableEngine false bare warmCalc :=
  reachable_toOps bare warmCalc_reachable

/-- C20, as amended. The unchecked lookup: in every state whose stored
matrix has one row per stored energy and 18 columns, in particular in every
state reached from a fresh calculator by parameter changes, `FillCache()`,
`FillCache(energies)` and the three query forms, and for every stored energy
`e`, whether or not the current parameters equal the cached ones, the read
at (first position of `e`, `ChannelCacheIdx(before, after)`) is in range, the
query returns that stored cell and the calculator, engine log included, is
unchanged; with the flag cleared the four-argument form is the checked
scalar query, in every state. -/
theorem unchecked_lookup_reads_stored_cell [DecidableEq D] [Neg D] [DecidableEq T]
    [Inhabited T] (engine : Engine D T) (isVar : Bool) (s : OscCalcDMP D T)
    (hstate : ReachableOps engine isVar false s ∨
      (s.fCache.probabilities.rows = s.fCache.energies.length ∧
        s.fCache.probabilities.cols = 18))
    (e : D) (he : e ∈ s.fCache.energies) (b a : Int)
    (hb : b ∈ flavours) (ha : a ∈ flavours) :
    (∃ c : Int, ChannelCacheIdx b a = .ok c ∧
      s.fCache.probabilities.coeff (s.fCache.energies.indexOf e) c
        = .ok (s.fCache.probabilities.coeffs (s.fCache.energies.indexOf e) c.toNat) ∧
      PLoose engine isVar s b a e true
        = .ok (s.fCache.probabilities.coeffs (s.fCache.energies.indexOf e) c.toNat, s)) ∧
    PLoose engine isVar s b a e false = PScalar engine isVar s b a e := by
  obtain ⟨c, hc, h0, h18⟩ := flavour_index hb ha
  have hne : s.fCache.energies ≠ [] := List.ne_nil_of_mem he
  have hshape : s.fCache.probabilities.rows = s.fCache.energies.length ∧
      s.fCache.probabilities.cols = 18 := by
    rcases hstate with h | h
    · exact ⟨(reachableOps_shape h).1, (reachableOps_shape h).2 hne⟩
    · exact h
  have hlt : s.fCache.energies.indexOf e < s.fCache.energies.length :=
    List.indexOf_lt_length.2 he
  have hv := coeff_ok s.fCache.probabilities (r := s.fCache.energies.indexOf e) (c := c)
    (by rw [hshape.1]; exact hlt) h0 (by rw [hshape.2]; exact_mod_cast h18)
  refine ⟨⟨c, hc, hv, ?_⟩, rfl⟩
  rw [PLoose_eval engine isVar s hc e, hv]
  rfl

/-- C20, witness: the example cache holding `[1, 2, 3]` after `th13` was
changed (stale parameters), queried for the stored energy 2. -/
theorem unchecked_lookup_reads_stored_cell_witness :
    (ReachableOps tableEngine false false (setParam .th13 99 warmCalc) ∨
      ((setParam .th13 99 warmCalc).fCache.probabilities.rows
          = (setParam .th13 99 warmCalc).fCache.energies.length ∧
        (setParam .th13 99 warmCalc).fCache.probabilities.cols = 18)) ∧
    (2 : Int) ∈ (setParam .th13 99 warmCalc).fCache.energies ∧
    (-16 : Int) ∈ flavours ∧ (-14 : Int) ∈ flavours ∧
    ParamsAreCached (setParam .th13 99 warmCalc) = false ∧
    (∃ c : Int, ChannelCacheIdx (-16) (-14) = .ok c ∧
      (setParam .th13 99 warmCalc).fCache.probabilities.coeff
          ((setParam .th13 99 warmCalc).fCache.energies.indexOf 2) c
        = .ok ((setParam .th13 99 warmCalc).fCache.probabilities.coeffs
            ((setParam .th13 99 warmCalc).fCache.energies.indexOf 2) c.toNat) ∧
      PLoose tableEngine false (setParam .th13 99 warmCalc) (-16) (-14) 2 true
        = .ok ((setParam .th13 99 warmCalc).fCache.probabilities.coeffs
            ((setParam .th13 99 warmCalc).fCache.energies.indexOf 2) c.toNat,
            setParam .th13 99 warmCalc)) ∧
    PLoose tableEngine false (setParam .th13 99 warmCalc) (-16) (-14) 2 false
      = PScalar tableEngine false (setParam .th13 99 warmCalc) (-16) (-14) 2 :=
  ⟨Or.inl (ReachableOps.setParam .th13 99 (warmCalc_reachableOps false)), by decide, by decide,
    by decide, by decide,
    unchecked_lookup_reads_stored_cell tableEngine false (setParam .th13 99 warmCalc)
      (Or.inl (ReachableOps.setParam .th13 99 (warmCalc_reachableOps false))) 2 (by decide)
      (-16) (-14) (by decide) (by decide)⟩

/-- C20, counterexample: after `SetCachedEnergies([1, 2, 3, 4])` on the
example cache holding `[1, 2, 3]`, the energy 4 is stored at position 3 while
the matrix still has 3 rows; the unchecked lookup for it reads row 3, out of
range, and returns no stored cell. -/
theorem unchecked_lookup_stored_energy_without_row :
    ReachableOps tableEngine false true (SetCachedEnergies warmCalc [1, 2, 3, 4]) ∧
    (4 : Int) ∈ (SetCachedEnergies warmCalc [1, 2, 3, 4]).fCache.energies ∧
    (SetCachedEnergies warmCalc [1, 2, 3, 4]).fCache.probabilities.rows = 3 ∧
    PLoose tableEngine false (SetCachedEnergies warmCalc [1, 2, 3, 4]) 12 12 4 true
      = .error (.coeffOutOfRange 3 0) :=
  ⟨ReachableOps.setCachedEnergies [1, 2, 3, 4] rfl (warmCalc_reachableOps true),
    by decide, rfl, rfl⟩

theorem vecHit_false_of_length [DecidableEq D] [Neg D] [DecidableEq T] [Inhabited T]
    {engine : Engine D T} {isVar : Bool} {s : OscCalcDMP D T}
    (hs : Reachable engine isVar s) {E : List D} (hE : E.length = 18 ∨ E = []) :
    vecHit s E = false := by
  rw [Bool.eq_false_iff]
  intro hh
  simp only [vecHit, Bool.and_eq_true, decide_eq_true_eq] at hh
  obtain ⟨⟨h1, -⟩, h3⟩ := hh
  have hne := cacheExists_ne_nil h1
  rcases hE with hE | hE
  · rcases hs.cacheInv.2 with h | h
    · exact hne h
    · simp only [cacheExists, h, Bool.and_eq_true, decide_eq_true_eq] at h1
      apply h1.1
      rw [h3, hE]
      rfl
  · exact hne (h3.trans hE)

theorem PVecTimes_always_miss [DecidableEq D] [Neg D] [DecidableEq T] [Inhabited T]
    {engine : Engine D T} {isVar : Bool} (hshape : EngineShape engine) {b a : Int} {c : Int}
    (hc : ChannelCacheIdx b a = .ok c) (h0 : 0 ≤ c) (h18 : c < 18) {E : List D}
    (hE : E.length = 18 ∨ E = []) (n : Nat) (s : OscCalcDMP D T)
    (hs : Reachable engine isVar s) :
    ∃ (vs : List (List T)) (sn : OscCalcDMP D T),
      PVecTimes engine b a E n s = .ok (vs, sn) ∧
      sn.engineLog.length = s.engineLog.length + n := by
  induction n generalizing s with
  | zero => exact ⟨[], s, rfl, rfl⟩
  | succ n ih =>
    have h1 := PVec_miss hshape (vecHit_false_of_length hs hE) hc h0 h18
    obtain ⟨vs, sn, h2, h3⟩ := ih (specRefill engine s E) (Reachable.vector b a E hs h1)
    refine ⟨column (specMatrix engine E s.fRho s.fL (currentParams s)) c :: vs, sn, ?_, ?_⟩
    · simp only [PVecTimes, h1, h2]
    · rw [h3]
      simp only [specRefill, List.length_append, List.length_singleton]
      omega

/-- C15. The hit condition of the vector query: from a reachable state the
query returns; it leaves the calculator unchanged when the cached list is
non-empty, its length differs from the number of columns of the stored
matrix, `ParamsAreCached()` holds and the cached list equals `E`; in every
other case `FillCache(E)` runs once. For a list of length 18 and for the
empty list every one of `n` repeated queries invokes the engine. -/
theorem vector_query_hit_condition [DecidableEq D] [Neg D] [DecidableEq T] [Inhabited T]
    (engine : Engine D T) (isVar : Bool) (hshape : EngineShape engine)
    (s : OscCalcDMP D T) (hs : Reachable engine isVar s) (E : List D) (b a : Int)
    (hb : b ∈ flavours) (ha : a ∈ flavours) :
    (∃ (v : List T) (s' : OscCalcDMP D T), PVec engine s b a E = .ok (v, s') ∧
      ((s.fCache.energies ≠ [] ∧ s.fCache.energies.length ≠ s.fCache.probabilities.cols ∧
          ParamsAreCached s = true ∧ s.fCache.energies = E) →
        s' = s) ∧
      (¬ (s.fCache.energies ≠ [] ∧ s.fCache.energies.length ≠ s.fCache.probabilities.cols ∧
          ParamsAreCached s = true ∧ s.fCache.energies = E) →
        s' = specRefill engine s E ∧
        s'.engineLog = s.engineLog ++ [⟨expand E, s.fRho, s.fL, currentParams s⟩])) ∧
    ((E.length = 18 ∨ E = []) → ∀ n : Nat,
      ∃ (vs : List (List T)) (sn : OscCalcDMP D T),
        PVecTimes engine b a E n s = .ok (vs, sn) ∧
        sn.engineLog.length = s.engineLog.length + n) := by
  obtain ⟨c, hc, h0, h18⟩ := flavour_index hb ha
  have hiff : vecHit s E = true ↔
      (s.fCache.energies ≠ [] ∧ s.fCache.energies.length ≠ s.fCache.probabilities.cols ∧
        ParamsAreCached s = true ∧ s.fCache.energies = E) := by
    simp only [vecHit, cacheExists, Bool.and_eq_true, decide_eq_true_eq, ne_eq,
      List.length_eq_zero]
    tauto
  refine ⟨⟨_, _, PVec_eval hshape (afterVec_probabilities hs.cacheInv E) hc h0 h18, ?_, ?_⟩,
    fun hE n => PVecTimes_always_miss hshape hc h0 h18 hE n s hs⟩
  · intro hcond
    simp [afterVec, hiff.2 hcond]
  · intro hcond
    have hf : vecHit s E = false := by
      rw [Bool.eq_false_iff]
      exact fun h => hcond (hiff.1 h)
    simp [afterVec, hf, specRefill]

/-- C15, witness: the example cache holding `[1, 2, 3]`, queried on the same
list. -/
theorem vector_query_hit_condition_witness :
    EngineShape tableEngine ∧ Reachable tableEngine false warmCalc ∧
    (14 : Int) ∈ flavours ∧ (16 : Int) ∈ flavours ∧
    (∃ (v : List Int) (s' : OscCalcDMP Int Int),
      PVec tableEngine warmCalc 14 16 [1, 2, 3] = .ok (v, s') ∧
      ((warmCalc.fCache.energies ≠ [] ∧
          warmCalc.fCache.energies.length ≠ warmCalc.fCache.probabilities.cols ∧
          ParamsAreCached warmCalc = true ∧ warmCalc.fCache.energies = [1, 2, 3]) →
        s' = warmCalc) ∧
      (¬ (warmCalc.fCache.energies ≠ [] ∧
          warmCalc.fCache.energies.length ≠ warmCalc.fCache.probabilities.cols ∧
          ParamsAreCached warmCalc = true ∧ warmCalc.fCache.energies = [1, 2, 3]) →
        s' = specRefill tableEngine warmCalc [1, 2, 3] ∧
        s'.engineLog = warmCalc.engineLog ++
          [⟨expand [1, 2, 3], warmCalc.fRho, warmCalc.fL, currentParams warmCalc⟩])) ∧
    (([(1 : Int), 2, 3].length = 18 ∨ [(1 : Int), 2, 3] = []) → ∀ n : Nat,
      ∃ (vs : List (List Int)) (sn : OscCalcDMP Int Int),
        PVecTimes tableEngine 14 16 [1, 2, 3] n warmCalc = .ok (vs, sn) ∧
        sn.engineLog.length = warmCalc.engineLog.length + n) :=
  ⟨tableEngine_shape, warmCalc_reachable, by decide, by decide,
    vector_query_hit_condition tableEngine false tableEngine_shape warmCalc warmCalc_reachable
      [1, 2, 3] 14 16 (by decide) (by decide)⟩

/-- C16. Refill reshape: when the engine's block for the stored expanded
energies has `2N` rows and 9 columns (`N` the number of stored energies),
both block reads of `FillCache()` are in range, and the stored matrix has `N`
rows and 18 columns with `stored[r, c] = B[r, c]` and
`stored[r, 9 + c] = B[N + r, c]` for `r < N`, `c < 9`. -/
theorem refill_reshape (engine : Engine D T) (s : OscCalcDMP D T)
    (hrows : (engine s.fCache.ENERGIES s.fRho s.fL (currentParams s)).rows
      = 2 * s.fCache.energies.length)
    (hcols : (engine s.fCache.ENERGIES s.fRho s.fL (currentParams s)).cols = 9) :
    ∃ (lo hi : ArrayXX T) (s' : OscCalcDMP D T),
      (engine s.fCache.ENERGIES s.fRho s.fL (currentParams s)).block 0 0
        s.fCache.energies.length 9 = .ok lo ∧
      (engine s.fCache.ENERGIES s.fRho s.fL (currentParams s)).block
        s.fCache.energies.length 0 s.fCache.energies.length 9 = .ok hi ∧
      FillCache engine s = .ok s' ∧
      s'.fCache.probabilities.rows = s.fCache.energies.length ∧
      s'.fCache.probabilities.cols = 18 ∧
      ∀ r, r < s.fCache.energies.length → ∀ c, c < 9 →
        s'.fCache.probabilities.coeffs r c
          = (engine s.fCache.ENERGIES s.fRho s.fL (currentParams s)).coeffs r c ∧
        s'.fCache.probabilities.coeffs r (9 + c)
          = (engine s.fCache.ENERGIES s.fRho s.fL (currentParams s)).coeffs
              (s.fCache.energies.length + r) c := by
  have h1 : 0 + s.fCache.energies.length
      ≤ (engine s.fCache.ENERGIES s.fRho s.fL (currentParams s)).rows ∧
      0 + 9 ≤ (engine s.fCache.ENERGIES s.fRho s.fL (currentParams s)).cols := by
    rw [hrows, hcols]; omega
  have h2 : s.fCache.energies.length + s.fCache.energies.length
      ≤ (engine s.fCache.ENERGIES s.fRho s.fL (currentParams s)).rows ∧
      0 + 9 ≤ (engine s.fCache.ENERGIES s.fRho s.fL (currentParams s)).cols := by
    rw [hrows, hcols]; omega
  have hlo : (engine s.fCache.ENERGIES s.fRho s.fL (currentParams s)).block 0 0
      s.fCache.energies.length 9 = .ok ⟨s.fCache.energies.length, 9, fun r c =>
        (engine s.fCache.ENERGIES s.fRho s.fL (currentParams s)).coeffs (0 + r) (0 + c)⟩ := by
    simp only [ArrayXX.block, if_pos h1]
  have hhi : (engine s.fCache.ENERGIES s.fRho s.fL (currentParams s)).block
      s.fCache.energies.length 0 s.fCache.energies.length 9
      = .ok ⟨s.fCache.energies.length, 9, fun r c =>
        (engine s.fCache.ENERGIES s.fRho s.fL (currentParams s)).coeffs
          (s.fCache.energies.length + r) (0 + c)⟩ := by
    simp only [ArrayXX.block, if_pos h2]
  have hfill : ∃ s', FillCache engine s = .ok s' := by
    simp only [FillCache, reshape, bind, Except.bind, pure, Except.pure, hlo, hhi]
    exact ⟨_, rfl⟩
  obtain ⟨s', hs'⟩ := hfill
  have hM : reshape (engine s.fCache.ENERGIES s.fRho s.fL (currentParams s))
      s.fCache.energies.length = .ok s'.fCache.probabilities := by
    simp only [FillCache, reshape, bind, Except.bind, pure, Except.pure, hlo, hhi,
      Except.ok.injEq] at hs' ⊢
    rw [← hs']
  have hM' := reshape_of_ok hM
  refine ⟨_, _, s', hlo, hhi, hs', by rw [hM'], by rw [hM'], fun r _ c hc => ?_⟩
  rw [hM']
  constructor
  · simp [hc]
  · simp

/-- C16, witness: the list `[1, 2, 3]` and the example engine; row 1 holds
the cells of the energies 2 (column 4) and -2 (column 13). -/
theorem refill_reshape_witness :
    (tableEngine (SetCachedEnergies sampleCalc [1, 2, 3]).fCache.ENERGIES
        (SetCachedEnergies sampleCalc [1, 2, 3]).fRho (SetCachedEnergies sampleCalc [1, 2, 3]).fL
        (currentParams (SetCachedEnergies sampleCalc [1, 2, 3]))).rows
      = 2 * (SetCachedEnergies sampleCalc [1, 2, 3]).fCache.energies.length ∧
    (tableEngine (SetCachedEnergies sampleCalc [1, 2, 3]).fCache.ENERGIES
        (SetCachedEnergies sampleCalc [1, 2, 3]).fRho (SetCachedEnergies sampleCalc [1, 2, 3]).fL
        (currentParams (SetCachedEnergies sampleCalc [1, 2, 3]))).cols = 9 ∧
    ∃ (s' : OscCalcDMP Int Int),
      FillCache tableEngine (SetCachedEnergies sampleCalc [1, 2, 3]) = .ok s' ∧
      s'.fCache.probabilities.rows = 3 ∧ s'.fCache.probabilities.cols = 18 ∧
      s'.fCache.probabilities.coeffs 1 4 = 2044 ∧
      s'.fCache.probabilities.coeffs 1 13 = -1956 := by
  refine ⟨rfl, rfl, ?_⟩
  obtain ⟨lo, hi, s', -, -, h3, h4, h5, h6⟩ :=
    refill_reshape tableEngine (SetCachedEnergies sampleCalc [1, 2, 3]) rfl rfl
  refine ⟨s', h3, h4, h5, ?_, ?_⟩
  · rw [(h6 1 (by decide) 4 (by decide)).1]; rfl
  · rw [(h6 1 (by decide) 4 (by decide)).2]; rfl

theorem expand_getElem? [Neg D] (E : List D) (k : Nat) (hk : k < E.length) :
    (expand E)[k]? = E[k]? ∧
    (expand E)[E.length + k]? = E[k]?.map (fun e => -e) := by
  unfold expand
  constructor
  · exact List.getElem?_append_left hk
  · rw [List.getElem?_append_right (by omega)]
    simp [List.getElem?_map]

/-- `FillCache()` in a state reached by the operations of the file: it
returns, and the expanded array it passes to the engine is the expansion of
the stored list. -/
theorem FillCache_reached [DecidableEq D] [Neg D] [DecidableEq T] [Inhabited T]
    {engine : Engine D T} {isVar bare : Bool} (hshape : EngineShape engine)
    {s : OscCalcDMP D T} (hs : ReachableOps engine isVar bare s) :
    ∃ s', FillCache engine s = .ok s' ∧
      s'.fCache.energies = s.fCache.energies ∧
      s'.fCache.probabilities.rows = s'.fCache.energies.length ∧
      s'.fCache.probabilities.cols = 18 ∧
      s'.fCache.iter = s.fCache.iter + 1 ∧
      s'.engineLog = s.engineLog ++
        [⟨expand s.fCache.energies, s.fRho, s.fL, currentParams s⟩] := by
  have hE := reachableOps_expanded hs
  obtain ⟨s', hs'⟩ := FillCache_shape hshape hE
  obtain ⟨h1, -, h3, h4, -, -, h7, h8⟩ := FillCache_of_ok hs'
  exact ⟨s', hs', h1, by rw [h3, h1], h4, h7, by rw [h8, hE]⟩

/-- C17. Expanded energies: `SetCachedEnergies(E)` stores `E` and
`concat(E, map(negate, E))`; in every state reached by the operations of the
file the stored expanded array is that expansion of the stored list, of
twice its length, with entry `k` equal to `E[k]` and entry `|E| + k` equal to
`-E[k]`; and both forms of `FillCache` pass exactly that array to the
engine. -/
theorem expanded_energies_invariant [DecidableEq D] [Neg D] [DecidableEq T] [Inhabited T]
    (engine : Engine D T) (isVar bare : Bool) (hshape : EngineShape engine)
    (s : OscCalcDMP D T) (hs : ReachableOps engine isVar bare s) (E : List D) :
    ((SetCachedEnergies s E).fCache.energies = E ∧
      (SetCachedEnergies s E).fCache.ENERGIES = expand E) ∧
    (s.fCache.ENERGIES = expand s.fCache.energies ∧
      s.fCache.ENERGIES.length = 2 * s.fCache.energies.length ∧
      ∀ k, k < s.fCache.energies.length →
        s.fCache.ENERGIES[k]? = s.fCache.energies[k]? ∧
        s.fCache.ENERGIES[s.fCache.energies.length + k]?
          = s.fCache.energies[k]?.map (fun e => -e)) ∧
    (∃ s', FillCache engine s = .ok s' ∧
      s'.engineLog = s.engineLog ++
        [⟨expand s.fCache.energies, s.fRho, s.fL, currentParams s⟩]) ∧
    (∃ s', FillCacheWith engine s E = .ok s' ∧
      s'.fCache.ENERGIES = expand s'.fCache.energies ∧
      s'.engineLog = s.engineLog ++ [⟨expand E, s.fRho, s.fL, currentParams s⟩]) := by
  have hE := reachableOps_expanded hs
  obtain ⟨s', hs', -, -, -, -, hlog⟩ := FillCache_reached hshape hs
  refine ⟨⟨rfl, rfl⟩, ⟨hE, ?_, fun k hk => ?_⟩, ⟨s', hs', hlog⟩,
    ⟨_, FillCacheWith_shape hshape s E, rfl, rfl⟩⟩
  · rw [hE, expand_length]; omega
  · rw [hE]; exact expand_getElem? _ k hk

/-- C17, witness: the example cache holding `[1, 2, 3]` and the list
`[4, 5]`. -/
theorem expanded_energies_invariant_witness :
    EngineShape tableEngine ∧ ReachableOps tableEngine false true warmCalc ∧
    ((SetCachedEnergies warmCalc [4, 5]).fCache.energies = [4, 5] ∧
      (SetCachedEnergies warmCalc [4, 5]).fCache.ENERGIES = expand [4, 5]) ∧
    (warmCalc.fCache.ENERGIES = expand warmCalc.fCache.energies ∧
      warmCalc.fCache.ENERGIES.length = 2 * warmCalc.fCache.energies.length ∧
      ∀ k, k < warmCalc.fCache.energies.length →
        warmCalc.fCache.ENERGIES[k]? = warmCalc.fCache.energies[k]? ∧
        warmCalc.fCache.ENERGIES[warmCalc.fCache.energies.length + k]?
          = warmCalc.fCache.energies[k]?.map (fun e => -e)) ∧
    (∃ s', FillCache tableEngine warmCalc = .ok s' ∧
      s'.engineLog = warmCalc.engineLog ++
        [⟨expand warmCalc.fCache.energies, warmCalc.fRho, warmCalc.fL,
          currentParams warmCalc⟩]) ∧
    (∃ s', FillCacheWith tableEngine warmCalc [4, 5] = .ok s' ∧
      s'.fCache.ENERGIES = expand s'.fCache.energies ∧
      s'.engineLog = warmCalc.engineLog ++
        [⟨expand [4, 5], warmCalc.fRho, warmCalc.fL, currentParams warmCalc⟩]) :=
  ⟨tableEngine_shape, warmCalc_reachableOps true,
    expanded_energies_invariant tableEngine false true tableEngine_shape warmCalc
      (warmCalc_reachableOps true) [4, 5]⟩

/-- C18, as amended. In every state reached from a fresh calculator by
parameter changes, `FillCache()`, `FillCache(energies)` and the three query
forms (no bare call of `SetCachedEnergies`), the stored matrix has as many
rows as the stored list has elements, and 18 columns when the list is
non-empty. `SetCachedEnergies` on its own replaces the list and leaves the
matrix as it was; the `FillCache()` that follows it restores the shape. -/
theorem cache_shape_invariant [DecidableEq D] [Neg D] [DecidableEq T] [Inhabited T]
    (engine : Engine D T) (isVar bare : Bool) (hshape : EngineShape engine)
    (s : OscCalcDMP D T) (hs : ReachableOps engine isVar bare s) :
    (bare = false →
      s.fCache.probabilities.rows = s.fCache.energies.length ∧
      (s.fCache.energies ≠ [] → s.fCache.probabilities.cols = 18)) ∧
    (∀ E : List D,
      (SetCachedEnergies s E).fCache.energies = E ∧
      (SetCachedEnergies s E).fCache.probabilities = s.fCache.probabilities) ∧
    (∃ s', FillCache engine s = .ok s' ∧
      s'.fCache.energies = s.fCache.energies ∧
      s'.fCache.probabilities.rows = s'.fCache.energies.length ∧
      s'.fCache.probabilities.cols = 18) := by
  obtain ⟨s', hs', h1, h2, h3, -⟩ := FillCache_reached hshape hs
  refine ⟨fun hb => ?_, fun E => ⟨rfl, rfl⟩, ⟨s', hs', h1, h2, h3⟩⟩
  subst hb
  exact reachableOps_shape hs

/-- C18, witness: the example cache holding `[1, 2, 3]`. -/
theorem cache_shape_invariant_witness :
    EngineShape tableEngine ∧ ReachableOps tableEngine false false warmCalc ∧
    (false = false →
      warmCalc.fCache.probabilities.rows = warmCalc.fCache.energies.length ∧
      (warmCalc.fCache.energies ≠ [] → warmCalc.fCache.probabilities.cols = 18)) ∧
    (∀ E : List Int,
      (SetCachedEnergies warmCalc E).fCache.energies = E ∧
      (SetCachedEnergies warmCalc E).fCache.probabilities = warmCalc.fCache.probabilities) ∧
    (∃ s', FillCache tableEngine warmCalc = .ok s' ∧
      s'.fCache.energies = warmCalc.fCache.energies ∧
      s'.fCache.probabilities.rows = s'.fCache.energies.length ∧
      s'.fCache.probabilities.cols = 18) :=
  ⟨tableEngine_shape, warmCalc_reachableOps false,
    cache_shape_invariant tableEngine false false tableEngine_shape warmCalc
      (warmCalc_reachableOps false)⟩

/-- C18, counterexample: after `SetCachedEnergies([1, 2, 3])` on a fresh
calculator the stored list has three elements and the stored matrix has no
rows and no columns. -/
theorem cache_shape_broken_by_bare_SetCachedEnergies :
    ReachableOps tableEngine false true (SetCachedEnergies sampleCalc [1, 2, 3]) ∧
    (SetCachedEnergies sampleCalc [1, 2, 3]).fCache.energies ≠ [] ∧
    (SetCachedEnergies sampleCalc [1, 2, 3]).fCache.energies.length = 3 ∧
    (SetCachedEnergies sampleCalc [1, 2, 3]).fCache.probabilities.rows = 0 ∧
    (SetCachedEnergies sampleCalc [1, 2, 3]).fCache.probabilities.cols = 0 :=
  ⟨ReachableOps.setCachedEnergies [1, 2, 3] rfl (ReachableOps.fresh sampleParams sampleParams),
    by decide, rfl, rfl, rfl⟩

/-- C19. Revision counter: in every state reached by the operations of the
file the revision equals the number of engine invocations; a refill
increments it by one and overwrites the energies, the expanded energies, the
matrix and the cached parameters (`FillCache()` alone increments it by one);
a vector hit, a scalar hit and the unchecked lookup return the calculator
unchanged; and the hit tests do not read the counter. -/
theorem revision_counter [DecidableEq D] [Neg D] [DecidableEq T] [Inhabited T]
    (engine : Engine D T) (isVar bare : Bool) (hshape : EngineShape engine)
    (s : OscCalcDMP D T) (hs : ReachableOps engine isVar bare s) (b a : Int)
    (hb : b ∈ flavours) (ha : a ∈ flavours) :
    s.fCache.iter = s.engineLog.length ∧
    (∀ E : List D, ∃ s', FillCacheWith engine s E = .ok s' ∧
      s'.fCache.iter = s.fCache.iter + 1 ∧
      s'.engineLog.length = s.engineLog.length + 1 ∧
      s'.fCache.energies = E ∧ s'.fCache.ENERGIES = expand E ∧
      s'.fCache.probabilities = specMatrix engine E s.fRho s.fL (currentParams s) ∧
      s'.fCache.parameters = currentParams s) ∧
    (∃ s', FillCache engine s = .ok s' ∧
      s'.fCache.iter = s.fCache.iter + 1 ∧
      s'.engineLog.length = s.engineLog.length + 1) ∧
    (∃ c : Int, ChannelCacheIdx b a = .ok c ∧
      (∀ E : List D, vecHit s E = true →
        PVec engine s b a E = (s.fCache.probabilities.col c).map (fun v => (v, s))) ∧
      (∀ e : D, scalarHit isVar s e = true →
        PScalar engine isVar s b a e
          = (s.fCache.probabilities.coeff (s.fCache.energies.indexOf e) c).map
              (fun v => (v, s))) ∧
      (∀ e : D, PLoose engine isVar s b a e true
          = (s.fCache.probabilities.coeff (s.fCache.energies.indexOf e) c).map
              (fun v => (v, s)))) ∧
    (∀ (n : Nat) (E : List D) (e : D),
      vecHit { s with fCache := { s.fCache with iter := n } } E = vecHit s E ∧
      scalarHit isVar { s with fCache := { s.fCache with iter := n } } e
        = scalarHit isVar s e) := by
  obtain ⟨c, hc, -, -⟩ := flavour_index hb ha
  obtain ⟨s', hs', -, -, -, hit, hlog⟩ := FillCache_reached hshape hs
  refine ⟨reachableOps_iter_eq hs, fun E => ⟨_, FillCacheWith_shape hshape s E, rfl, ?_, rfl, rfl,
    rfl, rfl⟩, ⟨s', hs', hit, ?_⟩, ⟨c, hc, fun E hh => PVec_hit engine hh hc,
    fun e hh => PScalar_hit_read engine hh hc, fun e => PLoose_eval engine isVar s hc e⟩,
    fun n E e => ⟨rfl, rfl⟩⟩
  · simp [specRefill]
  · rw [hlog]; simp

/-- C19, witness: the example cache holding `[1, 2, 3]`. -/
theorem revision_counter_witness :
    EngineShape tableEngine ∧ ReachableOps tableEngine false false warmCalc ∧
    (12 : Int) ∈ flavours ∧ (-12 : Int) ∈ flavours ∧
    warmCalc.fCache.iter = warmCalc.engineLog.length ∧
    (∀ E : List Int, ∃ s', FillCacheWith tableEngine warmCalc E = .ok s' ∧
      s'.fCache.iter = warmCalc.fCache.iter + 1 ∧
      s'.engineLog.length = warmCalc.engineLog.length + 1 ∧
      s'.fCache.energies = E ∧ s'.fCache.ENERGIES = expand E ∧
      s'.fCache.probabilities
        = specMatrix tableEngine E warmCalc.fRho warmCalc.fL (currentParams warmCalc) ∧
      s'.fCache.parameters = currentParams warmCalc) ∧
    (∃ s', FillCache tableEngine warmCalc = .ok s' ∧
      s'.fCache.iter = warmCalc.fCache.iter + 1 ∧
      s'.engineLog.length = warmCalc.engineLog.length + 1) ∧
    (∃ c : Int, ChannelCacheIdx 12 (-12) = .ok c ∧
      (∀ E : List Int, vecHit warmCalc E = true →
        PVec tableEngine warmCalc 12 (-12) E
          = (warmCalc.fCache.probabilities.col c).map (fun v => (v, warmCalc))) ∧
      (∀ e : Int, scalarHit false warmCalc e = true →
        PScalar tableEngine false warmCalc 12 (-12) e
          = (warmCalc.fCache.probabilities.coeff (warmCalc.fCache.energies.indexOf e) c).map
              (fun v => (v, warmCalc))) ∧
      (∀ e : Int, PLoose tableEngine false warmCalc 12 (-12) e true
          = (warmCalc.fCache.probabilities.coeff (warmCalc.fCache.energies.indexOf e) c).map
              (fun v => (v, warmCalc)))) ∧
    (∀ (n : Nat) (E : List Int) (e : Int),
      vecHit { warmCalc with fCache := { warmCalc.fCache with iter := n } } E
        = vecHit warmCalc E ∧
      scalarHit false { warmCalc with fCache := { warmCalc.fCache with iter := n } } e
        = scalarHit false warmCalc e) :=
  ⟨tableEngine_shape, warmCalc_reachableOps false, by decide, by decide,
    revision_counter tableEngine false false tableEngine_shape warmCalc
      (warmCalc_reachableOps false) 12 (-12) (by decide) (by decide)⟩

end OperationClaims

end osc
